import Mathlib

/-!
# Base64 codec (alinush/base64): embedding of `src/Base64.cpp` and `src/Base64.h`

A buffer handed over as a pointer is modelled by the function giving the cell at each
offset from the start of the buffer, and a pointer into it by that offset.  A store into a
`byte` cell keeps the value modulo 256.  A `char` is modelled by its character code, a
natural number.

The functions come in two layers.  In `isValidEncoding`, `encodeBuffer` and `decodeBuffer`
the lengths and counters (`uint`, `ulong`) are natural numbers.  In `getEncodedSize64`,
`encodeBuffer32`, `isValidEncoding32`, `decodeBuffer32`, `encodeFile` and `decodeFile` a
`uint` has 32 bits and a `ulong` 64, and a call may fail to return.  The two layers agree on
buffers of fewer than `2 ^ 32` characters (`isValidEncoding32_eq`, `decodeBuffer32_eq`,
`encodeBuffer32_eq`).
-/

namespace Base64

/-- Core.h: `typedef unsigned char byte`. -/
abbrev byte := Fin 256

/-- The conversion of an `int` value to `byte`: the value modulo 256. -/
def toByte (x : Nat) : byte := ⟨x % 256, Nat.mod_lt x (by decide)⟩

/-- The memory behind a pointer: the cell at each offset. -/
abbrev Buffer (α : Type) := Nat → α

/-- The assignment `b[p] = v`. -/
def Buffer.store {α : Type} (b : Buffer α) (p : Nat) (v : α) : Buffer α :=
  fun i => if i = p then v else b i

/-- The cells `b[p], ..., b[p + n - 1]`, in order. -/
def Buffer.read {α : Type} (b : Buffer α) (p n : Nat) : List α :=
  (List.range n).map (fun i => b (p + i))

/-- The buffer holding the items of `l` from offset 0 on, and `d` after them. -/
def Buffer.ofList {α : Type} (l : List α) (d : α) : Buffer α :=
  fun i => l.getD i d

/-- The characters of a string literal, followed by the terminating NUL. -/
def cstr (s : String) : Buffer Nat :=
  Buffer.ofList (s.toList.map Char.toNat) 0

/-- The bytes of a string literal, followed by the terminating NUL. -/
def bytes (s : String) : Buffer byte :=
  Buffer.ofList (s.toList.map (fun c => toByte c.toNat)) (toByte 0)

/-- The character codes of a string. -/
def codes (s : String) : List Nat :=
  s.toList.map Char.toNat

/-! ## `<cctype>` in the "C" locale -/

/-- The function `isdigit` of the C library. -/
def isdigit (ch : Nat) : Bool := decide ('0'.toNat ≤ ch ∧ ch ≤ '9'.toNat)

/-- The function `isupper` of the C library. -/
def isupper (ch : Nat) : Bool := decide ('A'.toNat ≤ ch ∧ ch ≤ 'Z'.toNat)

/-- The function `islower` of the C library. -/
def islower (ch : Nat) : Bool := decide ('a'.toNat ≤ ch ∧ ch ≤ 'z'.toNat)

/-- The function `isalpha` of the C library. -/
def isalpha (ch : Nat) : Bool := isupper ch || islower ch

/-- The function `isalnum` of the C library. -/
def isalnum (ch : Nat) : Bool := isalpha ch || isdigit ch


/-! ## The errors thrown, one per `throw` site of Base64.cpp -/

/-- The `std::runtime_error`s of Base64.cpp, told apart by the place that throws them. -/
inductive Error where
  /-- Thrown by `charToByte`: "Invalid character detected in the base64-encoded input". -/
  | InvalidCharacter
  /-- Thrown by `decodeBlock`: "Non-padding char encountered immediately after padding char". -/
  | InvalidPadding
  /-- Thrown by `decodeBuffer`: "The length of the base64-encoded line is not a multiple of 4". -/
  | MalformedLength
  /-- Thrown by `decodeBuffer`: "The input string is not a valid base64 encoding". -/
  | InvalidEncoding
  /-- The `throw` of `decodeFile`, "Line #n needs to have the size divisible by 4"; see
  `DoubleDelete` for what becomes of it. -/
  | MalformedLine (lineCount : Nat)
  /-- Thrown by `encodeFile`: "The output file line size must be a multiple of 4". -/
  | InvalidConfiguration
  /-- Thrown by `encodeFile` and `decodeFile`: "Cannot base64 encode/decode an empty file". -/
  | EmptyInput
  /-- Not a `throw`: the integer division by a zero chunk size in `encodeFile`. -/
  | DivisionByZero
  /-- Not a `throw` that reaches the caller: in `decodeFile` the branch for a line whose
  length is not a multiple of 4 runs `delete [] outBuffer` and then throws inside the `try`,
  and the `catch(...)` runs `delete [] outBuffer` on the same pointer again. -/
  | DoubleDelete (lineCount : Nat)
  /-- Not a `throw`: `decodeBuffer` has stored past the end of the array that `decodeFile`
  allocated for a line. -/
  | BufferOverflow
  deriving DecidableEq, Repr


/-! ## Base64.cpp -/

/-- The table `Base64::_byteToChar`. -/
def _byteToChar : List Nat :=
  ['A', 'B', 'C', 'D', 'E', 'F', 'G', 'H', 'I', 'J', 'K', 'L',
   'M', 'N', 'O', 'P', 'Q', 'R', 'S', 'T', 'U', 'V', 'W', 'X', 'Y', 'Z',
   'a', 'b', 'c', 'd', 'e', 'f', 'g', 'h', 'i', 'j', 'k', 'l',
   'm', 'n', 'o', 'p', 'q', 'r', 's', 't', 'u', 'v', 'w', 'x', 'y', 'z',
   '0', '1', '2', '3', '4', '5', '6', '7', '8', '9',
   '+', '/'].map Char.toNat

/-- The constant `Base64::_paddingChar`. -/
def _paddingChar : Nat := '='.toNat

/-- Base64.h: `getEncodedSize`. -/
def getEncodedSize (inputBufferSize : Nat) : Nat :=
  (inputBufferSize / 3) * 4 + (if inputBufferSize % 3 > 0 then 4 else 0)

/-- Base64.h: `getDecodedSize`. -/
def getDecodedSize (inputBufferSize : Nat) : Nat :=
  (inputBufferSize / 4) * 3

/-- Base64.h: `byteToChar`, the table entry `_byteToChar[number]` (the table has 64 entries;
an index past its end, which the source never uses, reads as NUL here). -/
def byteToChar (number : Nat) : Nat :=
  _byteToChar.getD number 0

/-- `Base64::isValidEncoding`, with each of its two loops run to its bound: the value the
call returns when the `uint` loop counters reach the bound, as they do for `length` below
`2 ^ 32` (`isValidEncoding32` keeps the widths of the counters). -/
def isValidEncoding (buffer : Buffer Nat) (length : Nat) : Bool :=
  if length % 4 ≠ 0 then false
  else if (List.range length).any (fun i =>
      !isalnum (buffer i) && buffer i != '+'.toNat && buffer i != '/'.toNat &&
        buffer i != _paddingChar) then false
  else if length ≠ 0 then
    if (List.range (length - 2)).any (fun i => buffer i == _paddingChar) then false
    else if buffer (length - 2) == _paddingChar && buffer (length - 1) != _paddingChar then false
    else true
  else true

/-- `Base64::encodeBlock` on the block at `inp + inPtr`, writing at `out + outPtr`. -/
def encodeBlock (inp : Buffer byte) (inPtr : Nat) (out : Buffer Nat) (outPtr : Nat)
    (inLength : Nat) : Buffer Nat :=
  let in0 : Nat := (inp (inPtr + 0)).val
  let in1 : Nat := (inp (inPtr + 1)).val
  let in2 : Nat := (inp (inPtr + 2)).val
  let out := out.store (outPtr + 0) (byteToChar (in0 >>> 2))
  let out := out.store (outPtr + 3) _paddingChar
  let out := out.store (outPtr + 2) _paddingChar
  let out := out.store (outPtr + 1) (byteToChar
    (((in0 &&& 0x03) <<< 4) ||| (if inLength > 1 then (in1 &&& 0xF0) >>> 4 else 0)))
  if inLength ≥ 2 then
    let out := out.store (outPtr + 2) (byteToChar
      (((in1 &&& 0x0F) <<< 2) ||| (if inLength = 3 then (in2 &&& 0xC0) >>> 6 else 0)))
    if inLength = 3 then out.store (outPtr + 3) (byteToChar (in2 &&& 0x3F)) else out
  else out

/-- `Base64::charToByte`. -/
def charToByte (ch : Nat) : Except Error Nat :=
  if ch = '+'.toNat then .ok 62
  else if ch = '/'.toNat then .ok 63
  else if isdigit ch then .ok ((52 + (ch - '0'.toNat)) % 256)
  else if isalpha ch then
    if isupper ch then .ok ((ch - 'A'.toNat) % 256)
    else .ok ((26 + (ch - 'a'.toNat)) % 256)
  else .error Error.InvalidCharacter

/-- `Base64::decodeBlock` on the block at `inp + inPtr`, writing at `out + outPtr`: the
output buffer as the call leaves it (also when it throws), and the length returned or
the error thrown. -/
def decodeBlock (inp : Buffer Nat) (inPtr : Nat) (out : Buffer byte) (outPtr : Nat) :
    Buffer byte × Except Error Nat :=
  let length := 0
  match charToByte (inp (inPtr + 0)), charToByte (inp (inPtr + 1)) with
  | .error e, _ => (out, .error e)
  | .ok _, .error e => (out, .error e)
  | .ok v0, .ok v1 =>
    let out := out.store (outPtr + 0) (toByte ((v0 <<< 2) ||| ((v1 &&& 0x30) >>> 4)))
    let out := out.store (outPtr + 1) (toByte ((v1 &&& 0x0F) <<< 4))
    let length := length + 2
    if inp (inPtr + 2) ≠ _paddingChar then
      match charToByte (inp (inPtr + 2)) with
      | .error e => (out, .error e)
      | .ok v2 =>
        let out := out.store (outPtr + 1)
          (toByte ((out (outPtr + 1)).val ||| ((v2 &&& 0x3C) >>> 2)))
        if inp (inPtr + 3) ≠ _paddingChar then
          match charToByte (inp (inPtr + 3)) with
          | .error e => (out, .error e)
          | .ok v3 =>
            let out := out.store (outPtr + 2) (toByte (((v2 &&& 0x03) <<< 6) ||| (v3 &&& 0x3F)))
            let length := length + 1
            (out, .ok length)
        else (out, .ok length)
    else if inp (inPtr + 3) ≠ _paddingChar then (out, .error Error.InvalidPadding)
    else (out, .ok length)

/-- The loop `for(uint i = 0; i < nChunks; i++)` of `encodeBuffer`, with `n` rounds to go:
the pointers and the output buffer when it ends. -/
def encodeBufferLoop (inp : Buffer byte) :
    Nat → Nat → Buffer Nat → Nat → Nat × Buffer Nat × Nat
  | 0, inPtr, out, outPtr => (inPtr, out, outPtr)
  | n + 1, inPtr, out, outPtr =>
    encodeBufferLoop inp n (inPtr + 3) (encodeBlock inp inPtr out outPtr 3) (outPtr + 4)

/-- `Base64::encodeBuffer`: the output buffer as the call leaves it, and the length returned,
with `nChunks` and the products `(nChunks + 1) * 4`, `nChunks * 4` as natural numbers
(`encodeBuffer32` keeps the width of `uint`). -/
def encodeBuffer (inp : Buffer byte) (out : Buffer Nat) (inSize : Nat) : Buffer Nat × Nat :=
  let nChunks := inSize / 3
  let lastChunkSize := inSize % 3
  let (inPtr, out, outPtr) := encodeBufferLoop inp nChunks 0 out 0
  if lastChunkSize > 0 then
    (encodeBlock inp inPtr out outPtr lastChunkSize, (nChunks + 1) * 4)
  else
    (out, nChunks * 4)

/-- The loop `for(uint i = 0; i < nChunks; i++)` of `decodeBuffer`, with `n` rounds to go. -/
def decodeBufferLoop (inp : Buffer Nat) :
    Nat → Nat → Buffer byte → Nat → Nat → Buffer byte × Except Error Nat
  | 0, _, out, _, decodedLength => (out, .ok decodedLength)
  | n + 1, inPtr, out, outPtr, decodedLength =>
    match decodeBlock inp inPtr out outPtr with
    | (out, .error e) => (out, .error e)
    | (out, .ok len) => decodeBufferLoop inp n (inPtr + 4) out (outPtr + 3) (decodedLength + len)

/-- `Base64::decodeBuffer`: the output buffer as the call leaves it (also when it throws),
and the length returned or the error thrown, with `nChunks` a natural number and the
validator `isValidEncoding` (`decodeBuffer32` keeps the width of `uint`). -/
def decodeBuffer (inp : Buffer Nat) (out : Buffer byte) (inSize : Nat) :
    Buffer byte × Except Error Nat :=
  if inSize % 4 ≠ 0 then (out, .error Error.MalformedLength)
  else if !isValidEncoding inp inSize then (out, .error Error.InvalidEncoding)
  else
    let nChunks := inSize / 4
    decodeBufferLoop inp nChunks 0 out 0 0


/-! ## The functions with machine integers

The same functions with `uint` taken as 32 bits and `ulong` as 64 bits: every operation on
them keeps its result modulo `2 ^ 32`, respectively `2 ^ 64`.  A loop whose `uint` counter
is compared with a `ulong` bound of `2 ^ 32` or more does not end by reaching the bound: the
loops of `isValidEncoding` are run with fuel, and `none` stands for a call that has not
returned when the fuel is used up. -/

/-- Base64.h: `getEncodedSize`, in `ulong` arithmetic of 64 bits. -/
def getEncodedSize64 (inputBufferSize : Nat) : Nat :=
  (((inputBufferSize / 3) * 4) % 2 ^ 64 + (if inputBufferSize % 3 > 0 then 4 else 0)) % 2 ^ 64

/-- `Base64::encodeBuffer` with `uint nChunks`, `uint lastChunkSize` of 32 bits and the
`ulong inSize` of 64 bits: the output buffer as the call leaves it, and the value returned
(the `uint` products `(nChunks + 1) * 4` and `nChunks * 4`, widened to `ulong`). -/
def encodeBuffer32 (inp : Buffer byte) (out : Buffer Nat) (inSize : Nat) : Buffer Nat × Nat :=
  let nChunks := (inSize / 3) % 2 ^ 32
  let lastChunkSize := (inSize % 3) % 2 ^ 32
  let (inPtr, out, outPtr) := encodeBufferLoop inp nChunks 0 out 0
  if lastChunkSize > 0 then
    (encodeBlock inp inPtr out outPtr lastChunkSize, (((nChunks + 1) % 2 ^ 32) * 4) % 2 ^ 32)
  else
    (out, (nChunks * 4) % 2 ^ 32)

/-- The first loop of `isValidEncoding`, `for(uint i = 0; i < length; i++)`, from the
counter value `i` on and for at most `fuel` tests of its condition: `some false` when the
body returns false, `some true` when the loop ends, `none` when the fuel is used up.  The
`uint` counter wraps at `2 ^ 32`; the `ulong` bound `length` does not. -/
def isValidEncodingLoop1 (buffer : Buffer Nat) (length : Nat) : Nat → Nat → Option Bool
  | 0, _ => none
  | fuel + 1, i =>
    if i < length then
      if !isalnum (buffer i) && buffer i != '+'.toNat && buffer i != '/'.toNat &&
          buffer i != _paddingChar then some false
      else isValidEncodingLoop1 buffer length fuel ((i + 1) % 2 ^ 32)
    else some true

/-- The second loop of `isValidEncoding`, `for(uint i = 0; i < length - 2; i++)`, in the
same way.  It is reached with `length` a multiple of 4 other than 0, so `length - 2` does
not wrap. -/
def isValidEncodingLoop2 (buffer : Buffer Nat) (length : Nat) : Nat → Nat → Option Bool
  | 0, _ => none
  | fuel + 1, i =>
    if i < length - 2 then
      if buffer i == _paddingChar then some false
      else isValidEncodingLoop2 buffer length fuel ((i + 1) % 2 ^ 32)
    else some true

/-- `Base64::isValidEncoding` with its two `uint` loop counters of 32 bits and the `ulong
length` of 64 bits, each loop run for at most `fuel` tests of its condition: the value
returned, or `none` when the call has not returned by then. -/
def isValidEncoding32 (fuel : Nat) (buffer : Buffer Nat) (length : Nat) : Option Bool :=
  if length % 4 ≠ 0 then some false
  else
    match isValidEncodingLoop1 buffer length fuel 0 with
    | none => none
    | some false => some false
    | some true =>
      if length ≠ 0 then
        match isValidEncodingLoop2 buffer length fuel 0 with
        | none => none
        | some false => some false
        | some true =>
          if buffer (length - 2) == _paddingChar && buffer (length - 1) != _paddingChar then
            some false
          else some true
      else some true

/-- `Base64::decodeBuffer` with `uint nChunks` of 32 bits, the `ulong inSize` of 64 bits
and the validator `isValidEncoding32`: the output buffer as the call leaves it and the
length returned or the error thrown, or `none` when the call has not returned. -/
def decodeBuffer32 (fuel : Nat) (inp : Buffer Nat) (out : Buffer byte) (inSize : Nat) :
    Option (Buffer byte × Except Error Nat) :=
  if inSize % 4 ≠ 0 then some (out, .error Error.MalformedLength)
  else
    match isValidEncoding32 fuel inp inSize with
    | none => none
    | some false => some (out, .error Error.InvalidEncoding)
    | some true =>
      let nChunks := (inSize / 4) % 2 ^ 32
      some (decodeBufferLoop inp nChunks 0 out 0 0)


/-! ## The file streams of `encodeFile` and `decodeFile`

A file is the sequence of its bytes; the encoded file is read and written as characters,
by their codes.  Opening a file always succeeds here (no `IOError`).  Memory got from
`new[]` holds values the program does not choose: they are parameters of the functions.
The two functions count with `uint` of 32 bits and call `encodeBuffer32` and
`decodeBuffer32`. -/

/-- The call `fin.read(buffer, n)`: `l` is the `n` bytes read, stored from `buffer[0]` on. -/
def Buffer.fill {α : Type} (b : Buffer α) (l : List α) : Buffer α :=
  fun i => l.getD i (b i)

/-- The call `memset(buffer, v, n)`. -/
def memset {α : Type} (b : Buffer α) (v : α) (n : Nat) : Buffer α :=
  fun i => if i < n then v else b i

/-- The C string at the buffer `b` of `size` cells: the characters before the first NUL. -/
def cString (b : Buffer Nat) (size : Nat) : List Nat :=
  (b.read 0 size).takeWhile (fun c => c != 0)

/-- The loop `for(uint i = 0; i < nChunks; i++)` of `encodeFile`, with `n` rounds to go:
the input stream, the two buffers and the output stream when it ends. -/
def encodeFileLoop (newline : List Nat) (inBufferSize outBufferSize : Nat) :
    Nat → List byte → Buffer byte → Buffer Nat → List Nat →
      List byte × Buffer byte × Buffer Nat × List Nat
  | 0, fin, inBuffer, outBuffer, fout => (fin, inBuffer, outBuffer, fout)
  | n + 1, fin, inBuffer, outBuffer, fout =>
    let inBuffer := inBuffer.fill (fin.take inBufferSize)
    let fin := fin.drop inBufferSize
    let outBuffer := (encodeBuffer32 inBuffer outBuffer inBufferSize).1
    let fout := fout ++ cString outBuffer (outBufferSize + 1) ++ newline
    encodeFileLoop newline inBufferSize outBufferSize n fin inBuffer outBuffer fout

/-- `Base64::encodeFile`: the characters written to the output file, or the error thrown
(every `throw` of `encodeFile` comes before the output file is opened).  `newline` is the
C string passed, without its NUL; `lineSize` is the `uint` passed, below `2 ^ 32`;
`inBuffer0` and `outBuffer0` are the two arrays as `new[]` hands them over.  The chunk size
`lineSize * 3 / 4` is computed in `uint`: the product wraps at `2 ^ 32` before the
division. -/
def encodeFile (inFile : List byte) (newline : List Nat) (lineSize : Nat)
    (inBuffer0 : Buffer byte) (outBuffer0 : Buffer Nat) : Except Error (List Nat) :=
  if lineSize % 4 ≠ 0 then .error Error.InvalidConfiguration
  else
    let fileLength := inFile.length
    if fileLength = 0 then .error Error.EmptyInput
    else
      let outBufferSize := lineSize
      let inBufferSize := (lineSize * 3) % 2 ^ 32 / 4
      if inBufferSize = 0 then .error Error.DivisionByZero
      else
        let nChunks := (fileLength / inBufferSize) % 2 ^ 32
        let lastChunkSize := (fileLength % inBufferSize) % 2 ^ 32
        let inBuffer := inBuffer0
        let outBuffer := outBuffer0.store outBufferSize 0
        let (fin, inBuffer, outBuffer, fout) :=
          encodeFileLoop newline inBufferSize outBufferSize nChunks inFile inBuffer outBuffer []
        if lastChunkSize ≠ 0 then
          let inBuffer := memset inBuffer (toByte 0) inBufferSize
          let outBuffer := memset outBuffer 0 outBufferSize
          let inBuffer := inBuffer.fill (fin.take lastChunkSize)
          let outBuffer := (encodeBuffer32 inBuffer outBuffer lastChunkSize).1
          .ok (fout ++ cString outBuffer (outBufferSize + 1) ++ newline)
        else .ok fout

/-- The call `getline(fin, inBuffer)` on a good stream with `rest` still to read: the line
(the characters before the next `'\n'`), what is left of the stream after it, and whether
the end of the stream was reached (`eofbit`). -/
def getline (rest : List Nat) : List Nat × List Nat × Bool :=
  let line := rest.takeWhile (fun c => c != '\n'.toNat)
  if line.length < rest.length then (line, rest.drop (line.length + 1), false)
  else (line, [], true)

/-- The step `if(inBuffer.length() > 0 && inBuffer[inBuffer.length()-1] == '\r')
inBuffer.erase(inBuffer.length()-1)` of `decodeFile`: the line without its last character
when that is a carriage return. -/
def stripCR (inBuffer : List Nat) : List Nat :=
  if inBuffer.length > 0 ∧ inBuffer.getD (inBuffer.length - 1) 0 = '\r'.toNat then
    inBuffer.take (inBuffer.length - 1)
  else inBuffer

/-- The loop `do ... while(!fin.eof())` of `decodeFile`, run for at most `fuel` rounds: the
bytes written to the output file and how the loop ended, or `none` when it has not ended by
then.  `uninit` is the array that `new[]` hands over; `capacity` is the number of cells of
the array `outBuffer` points to, which the source does not keep (`outBufferSize` follows the
last line, the array only grows).  `lineSize` and the sizes `lineSize * 3 / 4` are `uint`
of 32 bits.  A line whose length is not a multiple of 4 ends the loop in `DoubleDelete`: the
branch deletes `outBuffer` and throws inside the `try`, and the `catch(...)` deletes it
again.  A call of `decodeBuffer` that returns a length above `capacity` has stored past the
end of the array: `BufferOverflow`.  As `lineSize` is below `2 ^ 32`, `lineSize + 1` tests of
a loop condition are enough for the validator inside `decodeBuffer` to return. -/
def decodeFileLoop (uninit : Buffer byte) :
    Nat → List Nat → Nat → Nat → Nat → Buffer byte → List byte →
      Option (List byte × Except Error Unit)
  | 0, _, _, _, _, _, _ => none
  | fuel + 1, rest, lineCount, outBufferSize, capacity, outBuffer, fout =>
    let (inBuffer, rest, eof) := getline rest
    let lineCount := lineCount + 1
    let inBuffer := stripCR inBuffer
    let lineSize := inBuffer.length % 2 ^ 32
    if lineSize = 0 then
      if eof then some (fout, .ok ())
      else decodeFileLoop uninit fuel rest lineCount outBufferSize capacity outBuffer fout
    else if lineSize % 4 ≠ 0 then some (fout, .error (Error.DoubleDelete lineCount))
    else
      let outBuffer := if (lineSize * 3) % 2 ^ 32 / 4 > outBufferSize then uninit else outBuffer
      let capacity :=
        if (lineSize * 3) % 2 ^ 32 / 4 > outBufferSize then (lineSize * 3) % 2 ^ 32 / 4
        else capacity
      let outBufferSize := (lineSize * 3) % 2 ^ 32 / 4
      match decodeBuffer32 (lineSize + 1) (Buffer.ofList inBuffer 0) outBuffer lineSize with
      | none => none
      | some (_, .error e) => some (fout, .error e)
      | some (outBuffer, .ok decodedLength) =>
        if decodedLength > capacity then some (fout, .error Error.BufferOverflow)
        else
          let fout := fout ++ outBuffer.read 0 decodedLength
          if eof then some (fout, .ok ())
          else decodeFileLoop uninit fuel rest lineCount outBufferSize capacity outBuffer fout

/-- `Base64::decodeFile`: the bytes written to the output file and how the call ended.
Every round of the loop but the last takes a `'\n'` off the stream, so one round more than
the file has characters is enough. -/
def decodeFile (inFile : List Nat) (uninit : Buffer byte) :
    Option (List byte × Except Error Unit) :=
  let fileLength := inFile.length
  if fileLength = 0 then some ([], .error Error.EmptyInput)
  else
    let lineSize := 76
    let lineCount := 0
    let outBufferSize := getDecodedSize lineSize
    decodeFileLoop uninit (fileLength + 1) inFile lineCount outBufferSize outBufferSize
      uninit []


/-! ## Auxiliary definitions for the proofs -/

/-- Equality of results is decidable. -/
instance instDecidableEqExcept {ε α : Type} [DecidableEq ε] [DecidableEq α] :
    DecidableEq (Except ε α)
  | .ok a, .ok b =>
    if h : a = b then isTrue (by rw [h]) else isFalse (by intro h2; cases h2; exact h rfl)
  | .error a, .error b =>
    if h : a = b then isTrue (by rw [h]) else isFalse (by intro h2; cases h2; exact h rfl)
  | .ok _, .error _ => isFalse (by intro h; cases h)
  | .error _, .ok _ => isFalse (by intro h; cases h)

/-- The character that `encodeBlock` leaves at position `r` of the output block, for the
input bytes `b0 b1 b2` (read off the body of `encodeBlock`). -/
def blockChar (b0 b1 b2 : Nat) (inLength : Nat) (r : Nat) : Nat :=
  match r with
  | 0 => byteToChar (b0 >>> 2)
  | 1 => byteToChar
      (((b0 &&& 0x03) <<< 4) ||| (if inLength > 1 then (b1 &&& 0xF0) >>> 4 else 0))
  | 2 =>
    if inLength ≥ 2 then byteToChar
      (((b1 &&& 0x0F) <<< 2) ||| (if inLength = 3 then (b2 &&& 0xC0) >>> 6 else 0))
    else _paddingChar
  | _ => if inLength = 3 then byteToChar (b2 &&& 0x3F) else _paddingChar

/-- The character at offset `j` of the encoding of the `inSize` bytes at `inp`. -/
def encChar (inp : Buffer byte) (inSize : Nat) (j : Nat) : Nat :=
  blockChar (inp (3 * (j / 4))).val (inp (3 * (j / 4) + 1)).val (inp (3 * (j / 4) + 2)).val
    (if j / 4 < inSize / 3 then 3 else inSize % 3) (j % 4)

/-- The 6-bit number behind position `r` of the output block of `encodeBlock`, written
with division and remainder. -/
def sextet (b0 b1 b2 : Nat) (inLength : Nat) (r : Nat) : Nat :=
  match r with
  | 0 => b0 / 4
  | 1 => (b0 % 4) * 16 + (if inLength > 1 then b1 / 16 else 0)
  | 2 => (b1 % 16) * 4 + (if inLength = 3 then b2 / 64 else 0)
  | _ => b2 % 64

/-- The number `charToByte` returns for a character, and 0 where it throws. -/
def charVal (c : Nat) : Nat :=
  match charToByte c with
  | .ok v => v
  | .error _ => 0

/-- The input block at `inp + p` is one that `decodeBlock` decodes without throwing. -/
def blockGood (inp : Buffer Nat) (p : Nat) : Prop :=
  (∃ v, charToByte (inp p) = .ok v) ∧ (∃ v, charToByte (inp (p + 1)) = .ok v) ∧
  ((inp (p + 2) = _paddingChar ∧ inp (p + 3) = _paddingChar) ∨
   (inp (p + 2) ≠ _paddingChar ∧ (∃ v, charToByte (inp (p + 2)) = .ok v) ∧
     (inp (p + 3) = _paddingChar ∨ ∃ v, charToByte (inp (p + 3)) = .ok v)))

/-- The length `decodeBlock` returns for the input block at `inp + p`, when it returns. -/
def decodedLen (inp : Buffer Nat) (p : Nat) : Nat :=
  if inp (p + 2) ≠ _paddingChar ∧ inp (p + 3) ≠ _paddingChar then 3 else 2

/-- The byte `decodeBlock` leaves at position `r` of the output block, for the input block
at `inp + p`, written with division and remainder. -/
def decodedByte (inp : Buffer Nat) (p : Nat) (r : Nat) : byte :=
  match r with
  | 0 => toByte (charVal (inp p) * 4 + charVal (inp (p + 1)) / 16)
  | 1 => toByte ((charVal (inp (p + 1)) % 16) * 16 +
      (if inp (p + 2) ≠ _paddingChar then charVal (inp (p + 2)) / 4 else 0))
  | _ => toByte ((charVal (inp (p + 2)) % 4) * 64 + charVal (inp (p + 3)))

/-- The sum of the lengths `decodeBlock` returns over `n` consecutive blocks from `inp + p`. -/
def sumLen (inp : Buffer Nat) : Nat → Nat → Nat
  | _, 0 => 0
  | p, n + 1 => decodedLen inp p + sumLen inp (p + 4) n

/-- The encoding of the bytes `l`: what `encodeBuffer` writes for them. -/
def encList (l : List byte) : List Nat :=
  (encodeBuffer (Buffer.ofList l (toByte 0)) (fun _ => 0) l.length).1.read 0
    (getEncodedSize l.length)

/-- The first `n` chunks of `c` bytes of a stream. -/
def chunksLoop (c : Nat) : Nat → List byte → List (List byte)
  | 0, _ => []
  | n + 1, fin => fin.take c :: chunksLoop c n (fin.drop c)

/-- The chunks `encodeFile` cuts a file into: the full ones, then what is left, if any. -/
def chunks (c : Nat) (f : List byte) : List (List byte) :=
  chunksLoop c (f.length / c) f ++
    (if f.length % c ≠ 0 then [f.drop (f.length / c * c)] else [])

/-- The file made of one encoded line per chunk. -/
def encodedLines (newline : List Nat) : List (List byte) → List Nat
  | [] => []
  | l :: cs => encList l ++ newline ++ encodedLines newline cs

/-- The file made of the given lines, each followed by `'\n'`. -/
def linesOf (lines : List (List Nat)) : List Nat :=
  (lines.map (fun l => l ++ ['\n'.toNat])).flatten


/-! ## Buffers -/

theorem store_apply {α : Type} (b : Buffer α) (p : Nat) (v : α) (i : Nat) :
    b.store p v i = if i = p then v else b i := rfl

theorem read_length {α : Type} (b : Buffer α) (p n : Nat) : (b.read p n).length = n := by
  simp [Buffer.read]


/-! ## `encodeBlock` and `encodeBuffer`, cell by cell -/

theorem encodeBlock_apply (inp : Buffer byte) (inPtr : Nat) (out : Buffer Nat) (outPtr : Nat)
    (inLength : Nat) (j : Nat) :
    encodeBlock inp inPtr out outPtr inLength j =
      if outPtr ≤ j ∧ j < outPtr + 4 then
        blockChar (inp inPtr).val (inp (inPtr + 1)).val (inp (inPtr + 2)).val inLength (j - outPtr)
      else out j := by
  by_cases h : outPtr ≤ j ∧ j < outPtr + 4
  · rw [if_pos h]
    obtain ⟨r, rfl⟩ : ∃ r, j = outPtr + r := ⟨j - outPtr, by omega⟩
    have hr : r < 4 := by omega
    have e : outPtr + r - outPtr = r := by omega
    rw [e]
    interval_cases r <;> simp only [encodeBlock, blockChar, Nat.add_zero] <;>
      split_ifs <;> simp [store_apply] <;> omega
  · rw [if_neg h]
    have n0 : j ≠ outPtr := by omega
    have n1 : j ≠ outPtr + 1 := by omega
    have n2 : j ≠ outPtr + 2 := by omega
    have n3 : j ≠ outPtr + 3 := by omega
    simp only [encodeBlock, Nat.add_zero]
    split_ifs <;> simp [store_apply, n0, n1, n2, n3]

theorem encodeBufferLoop_spec (inp : Buffer byte) (n : Nat) :
    ∀ (inPtr : Nat) (out : Buffer Nat) (outPtr : Nat),
      (encodeBufferLoop inp n inPtr out outPtr).1 = inPtr + 3 * n ∧
      (encodeBufferLoop inp n inPtr out outPtr).2.2 = outPtr + 4 * n ∧
      ∀ j, (encodeBufferLoop inp n inPtr out outPtr).2.1 j =
        if outPtr ≤ j ∧ j < outPtr + 4 * n then
          blockChar (inp (inPtr + 3 * ((j - outPtr) / 4))).val
            (inp (inPtr + 3 * ((j - outPtr) / 4) + 1)).val
            (inp (inPtr + 3 * ((j - outPtr) / 4) + 2)).val 3 ((j - outPtr) % 4)
        else out j := by
  induction n with
  | zero =>
    intro inPtr out outPtr
    refine ⟨rfl, rfl, fun j => ?_⟩
    have : ¬ (outPtr ≤ j ∧ j < outPtr + 4 * 0) := by omega
    rw [if_neg this]
    rfl
  | succ n ih =>
    intro inPtr out outPtr
    obtain ⟨h1, h2, h3⟩ := ih (inPtr + 3) (encodeBlock inp inPtr out outPtr 3) (outPtr + 4)
    refine ⟨?_, ?_, fun j => ?_⟩
    · show (encodeBufferLoop inp n (inPtr + 3) _ (outPtr + 4)).1 = _
      rw [h1]; omega
    · show (encodeBufferLoop inp n (inPtr + 3) _ (outPtr + 4)).2.2 = _
      rw [h2]; omega
    · show (encodeBufferLoop inp n (inPtr + 3) _ (outPtr + 4)).2.1 j = _
      rw [h3 j, encodeBlock_apply]
      by_cases c1 : outPtr + 4 ≤ j ∧ j < outPtr + 4 + 4 * n
      · have c2 : outPtr ≤ j ∧ j < outPtr + 4 * (n + 1) := by omega
        rw [if_pos c1, if_pos c2]
        have e1 : (j - outPtr) / 4 = (j - (outPtr + 4)) / 4 + 1 := by omega
        have e2 : (j - outPtr) % 4 = (j - (outPtr + 4)) % 4 := by omega
        have e3 : inPtr + 3 * ((j - (outPtr + 4)) / 4 + 1) =
            inPtr + 3 + 3 * ((j - (outPtr + 4)) / 4) := by omega
        rw [e1, e2, e3]
      · rw [if_neg c1]
        by_cases c3 : outPtr ≤ j ∧ j < outPtr + 4
        · have c2 : outPtr ≤ j ∧ j < outPtr + 4 * (n + 1) := by omega
          rw [if_pos c3, if_pos c2]
          have e1 : (j - outPtr) / 4 = 0 := by omega
          have e2 : (j - outPtr) % 4 = j - outPtr := by omega
          rw [e1, e2]; rfl
        · have c2 : ¬ (outPtr ≤ j ∧ j < outPtr + 4 * (n + 1)) := by omega
          rw [if_neg c3, if_neg c2]

theorem encodeBuffer_length (inp : Buffer byte) (out : Buffer Nat) (inSize : Nat) :
    (encodeBuffer inp out inSize).2 = getEncodedSize inSize := by
  unfold encodeBuffer getEncodedSize
  simp only []
  split_ifs <;> simp; omega

theorem encodeBuffer_apply (inp : Buffer byte) (out : Buffer Nat) (inSize : Nat) (j : Nat) :
    (encodeBuffer inp out inSize).1 j =
      if j < getEncodedSize inSize then encChar inp inSize j else out j := by
  obtain ⟨h1, h2, h3⟩ := encodeBufferLoop_spec inp (inSize / 3) 0 out 0
  unfold encodeBuffer getEncodedSize encChar
  simp only []
  by_cases hl : inSize % 3 > 0
  · rw [if_pos hl, if_pos hl]
    show encodeBlock inp (encodeBufferLoop inp (inSize / 3) 0 out 0).1
      (encodeBufferLoop inp (inSize / 3) 0 out 0).2.1
      (encodeBufferLoop inp (inSize / 3) 0 out 0).2.2 (inSize % 3) j = _
    rw [encodeBlock_apply, h1, h2, h3 j]
    by_cases c1 : j < 4 * (inSize / 3)
    · have c2 : ¬ (0 + 4 * (inSize / 3) ≤ j ∧ j < 0 + 4 * (inSize / 3) + 4) := by omega
      have c3 : 0 ≤ j ∧ j < 0 + 4 * (inSize / 3) := by omega
      have c4 : j < inSize / 3 * 4 + 4 := by omega
      have c5 : j / 4 < inSize / 3 := by omega
      rw [if_neg c2, if_pos c3, if_pos c4, if_pos c5]
      simp
    · by_cases c2 : j < 4 * (inSize / 3) + 4
      · have c3 : 0 + 4 * (inSize / 3) ≤ j ∧ j < 0 + 4 * (inSize / 3) + 4 := by omega
        have c4 : j < inSize / 3 * 4 + 4 := by omega
        have c5 : ¬ j / 4 < inSize / 3 := by omega
        rw [if_pos c3, if_pos c4, if_neg c5]
        have e1 : 0 + 3 * (inSize / 3) = 3 * (j / 4) := by omega
        have e2 : j - (0 + 4 * (inSize / 3)) = j % 4 := by omega
        rw [e1, e2]
      · have c3 : ¬ (0 + 4 * (inSize / 3) ≤ j ∧ j < 0 + 4 * (inSize / 3) + 4) := by omega
        have c4 : ¬ j < inSize / 3 * 4 + 4 := by omega
        have c6 : ¬ (0 ≤ j ∧ j < 0 + 4 * (inSize / 3)) := by omega
        rw [if_neg c3, if_neg c4, if_neg c6]
  · rw [if_neg hl, if_neg hl]
    show (encodeBufferLoop inp (inSize / 3) 0 out 0).2.1 j = _
    rw [h3 j]
    by_cases c1 : j < 4 * (inSize / 3)
    · have c3 : 0 ≤ j ∧ j < 0 + 4 * (inSize / 3) := by omega
      have c4 : j < inSize / 3 * 4 + 0 := by omega
      have c5 : j / 4 < inSize / 3 := by omega
      rw [if_pos c3, if_pos c4, if_pos c5]
      simp
    · have c3 : ¬ (0 ≤ j ∧ j < 0 + 4 * (inSize / 3)) := by omega
      have c4 : ¬ j < inSize / 3 * 4 + 0 := by omega
      rw [if_neg c3, if_neg c4]


/-! ## Characters and the alphabet table -/

theorem paddingChar_eq : _paddingChar = 61 := by decide

theorem isdigit_iff (c : Nat) : isdigit c = true ↔ 48 ≤ c ∧ c ≤ 57 := by
  simp [isdigit]

theorem isupper_iff (c : Nat) : isupper c = true ↔ 65 ≤ c ∧ c ≤ 90 := by
  simp [isupper]

theorem islower_iff (c : Nat) : islower c = true ↔ 97 ≤ c ∧ c ≤ 122 := by
  simp [islower]

theorem isalpha_iff (c : Nat) :
    isalpha c = true ↔ (65 ≤ c ∧ c ≤ 90) ∨ (97 ≤ c ∧ c ≤ 122) := by
  simp [isalpha, isupper_iff, islower_iff]

theorem isalnum_iff (c : Nat) :
    isalnum c = true ↔ (65 ≤ c ∧ c ≤ 90) ∨ (97 ≤ c ∧ c ≤ 122) ∨ (48 ≤ c ∧ c ≤ 57) := by
  simp [isalnum, isalpha_iff, isdigit_iff, or_assoc]

/-- Every table entry is a letter, a digit, `+` or `/`, and none is the padding character. -/
theorem byteToChar_class : ∀ v < 64,
    ((65 ≤ byteToChar v ∧ byteToChar v ≤ 90) ∨ (97 ≤ byteToChar v ∧ byteToChar v ≤ 122) ∨
      (48 ≤ byteToChar v ∧ byteToChar v ≤ 57) ∨ byteToChar v = 43 ∨ byteToChar v = 47) ∧
    byteToChar v ≠ 61 := by
  decide

theorem charToByte_byteToChar : ∀ v < 64, charToByte (byteToChar v) = .ok v := by
  decide


/-! ## The validator -/

theorem isValidEncoding_iff (buffer : Buffer Nat) (length : Nat) :
    isValidEncoding buffer length = true ↔
      length % 4 = 0 ∧
      (∀ i < length, (65 ≤ buffer i ∧ buffer i ≤ 90) ∨ (97 ≤ buffer i ∧ buffer i ≤ 122) ∨
        (48 ≤ buffer i ∧ buffer i ≤ 57) ∨ buffer i = 43 ∨ buffer i = 47 ∨ buffer i = 61) ∧
      (∀ i, i + 2 < length → buffer i ≠ 61) ∧
      (2 ≤ length → buffer (length - 2) = 61 → buffer (length - 1) = 61) := by
  have hc : ∀ c : Nat,
      ((!isalnum c && c != '+'.toNat && c != '/'.toNat && c != _paddingChar) = true) ↔
        ¬ ((65 ≤ c ∧ c ≤ 90) ∨ (97 ≤ c ∧ c ≤ 122) ∨ (48 ≤ c ∧ c ≤ 57) ∨
          c = 43 ∨ c = 47 ∨ c = 61) := by
    intro c
    have h1 : ('+'.toNat : Nat) = 43 := by decide
    have h2 : ('/'.toNat : Nat) = 47 := by decide
    rw [h1, h2, paddingChar_eq]
    cases h : isalnum c
    · have := (isalnum_iff c).not.mp (by simp [h])
      simp only [Bool.not_false, Bool.true_and, Bool.and_eq_true, bne_iff_ne, ne_eq]
      omega
    · have := (isalnum_iff c).mp h
      simp only [Bool.not_true, Bool.false_and, Bool.false_eq_true, false_iff, not_not]
      omega
  unfold isValidEncoding
  by_cases h4 : length % 4 = 0
  · rw [if_neg (by simpa using h4)]
    by_cases hany : (List.range length).any (fun i =>
        !isalnum (buffer i) && buffer i != '+'.toNat && buffer i != '/'.toNat &&
          buffer i != _paddingChar) = true
    · rw [if_pos hany]
      rw [List.any_eq_true] at hany
      obtain ⟨i, hi, hb⟩ := hany
      rw [List.mem_range] at hi
      have := (hc (buffer i)).mp hb
      constructor
      · intro h; cases h
      · rintro ⟨_, hall, _⟩
        exact absurd (hall i hi) this
    · rw [if_neg hany]
      have hall : ∀ i < length, (65 ≤ buffer i ∧ buffer i ≤ 90) ∨
          (97 ≤ buffer i ∧ buffer i ≤ 122) ∨ (48 ≤ buffer i ∧ buffer i ≤ 57) ∨
          buffer i = 43 ∨ buffer i = 47 ∨ buffer i = 61 := by
        intro i hi
        by_contra hn
        exact hany (List.any_eq_true.mpr ⟨i, List.mem_range.mpr hi, (hc (buffer i)).mpr hn⟩)
      by_cases h0 : length = 0
      · rw [if_neg (by simpa using h0)]
        subst h0
        simp
      · rw [if_pos h0]
        by_cases hpad : (List.range (length - 2)).any (fun i => buffer i == _paddingChar) = true
        · rw [if_pos hpad]
          rw [List.any_eq_true] at hpad
          obtain ⟨i, hi, hb⟩ := hpad
          rw [List.mem_range] at hi
          rw [paddingChar_eq] at hb
          have hb2 : buffer i = 61 := by simpa using hb
          constructor
          · intro h; cases h
          · rintro ⟨_, _, h3, _⟩
            exact absurd hb2 (h3 i (by omega))
        · rw [if_neg hpad]
          have h3 : ∀ i, i + 2 < length → buffer i ≠ 61 := by
            intro i hi hb
            apply hpad
            refine List.any_eq_true.mpr ⟨i, List.mem_range.mpr (by omega), ?_⟩
            rw [paddingChar_eq]
            simpa using hb
          rw [paddingChar_eq]
          by_cases hl : (buffer (length - 2) == 61 && buffer (length - 1) != 61) = true
          · rw [if_pos hl]
            simp only [Bool.and_eq_true, beq_iff_eq, bne_iff_ne, ne_eq] at hl
            constructor
            · intro h; cases h
            · rintro ⟨_, _, _, h4⟩
              exact absurd (h4 (by omega) hl.1) hl.2
          · rw [if_neg hl]
            simp only [Bool.and_eq_true, beq_iff_eq, bne_iff_ne, ne_eq, not_and, not_not] at hl
            simp only [true_iff]
            exact ⟨h4, hall, h3, fun _ h => hl h⟩
  · rw [if_pos (by simpa using h4)]
    constructor
    · intro h; cases h
    · rintro ⟨h, _⟩
      exact absurd h h4


/-! ## The bit operations, as division and remainder -/

theorem shr2_eq : ∀ b < 256, b >>> 2 = b / 4 := by decide!

theorem and3_shl4_eq : ∀ b < 256, (b &&& 0x03) <<< 4 = (b % 4) * 16 := by decide!

theorem andF0_shr4_eq : ∀ b < 256, (b &&& 0xF0) >>> 4 = b / 16 := by decide!

theorem and0F_shl2_eq : ∀ b < 256, (b &&& 0x0F) <<< 2 = (b % 16) * 4 := by decide!

theorem andC0_shr6_eq : ∀ b < 256, (b &&& 0xC0) >>> 6 = b / 64 := by decide!

theorem and3F_eq : ∀ b < 256, b &&& 0x3F = b % 64 := by decide!

theorem or16_eq : ∀ a < 4, ∀ y < 16, (a * 16) ||| y = a * 16 + y := by decide!

theorem or4_eq : ∀ a < 16, ∀ y < 4, (a * 4) ||| y = a * 4 + y := by decide!

theorem dec0_eq : ∀ v0 < 64, ∀ v1 < 64, (v0 <<< 2) ||| ((v1 &&& 0x30) >>> 4) = v0 * 4 + v1 / 16 := by
  decide!

theorem dec1a_eq : ∀ v1 < 64, ((v1 &&& 0x0F) <<< 4) % 256 = (v1 % 16) * 16 := by decide!

theorem dec1b_eq : ∀ a < 16, ∀ v2 < 64, (a * 16) ||| ((v2 &&& 0x3C) >>> 2) = a * 16 + v2 / 4 := by
  decide!

theorem dec2_eq : ∀ v2 < 64, ∀ v3 < 64,
    ((v2 &&& 0x03) <<< 6) ||| (v3 &&& 0x3F) = (v2 % 4) * 64 + v3 := by
  decide!

theorem sextet_lt (b0 b1 b2 : Nat) (h0 : b0 < 256) (h1 : b1 < 256) (h2 : b2 < 256)
    (inLength r : Nat) : sextet b0 b1 b2 inLength r < 64 := by
  unfold sextet
  split <;> (try split_ifs) <;> omega

theorem blockChar_eq (b0 b1 b2 : Nat) (h0 : b0 < 256) (h1 : b1 < 256) (h2 : b2 < 256)
    (inLength r : Nat) :
    blockChar b0 b1 b2 inLength r =
      if (r = 2 ∧ inLength < 2) ∨ (3 ≤ r ∧ inLength ≠ 3) then _paddingChar
      else byteToChar (sextet b0 b1 b2 inLength r) := by
  unfold blockChar sextet
  rw [shr2_eq b0 h0, and3_shl4_eq b0 h0, andF0_shr4_eq b1 h1, and0F_shl2_eq b1 h1,
    andC0_shr6_eq b2 h2, and3F_eq b2 h2]
  have hor16 : ∀ y < 16, (b0 % 4 * 16) ||| y = b0 % 4 * 16 + y :=
    fun y hy => or16_eq _ (by omega) _ hy
  have hor4 : ∀ y < 4, (b1 % 16 * 4) ||| y = b1 % 16 * 4 + y :=
    fun y hy => or4_eq _ (by omega) _ hy
  match r with
  | 0 => simp
  | 1 =>
    have c : ¬ ((1 = 2 ∧ inLength < 2) ∨ (3 ≤ 1 ∧ inLength ≠ 3)) := by omega
    rw [if_neg c]
    show byteToChar (b0 % 4 * 16 ||| if inLength > 1 then b1 / 16 else 0) =
      byteToChar (b0 % 4 * 16 + if inLength > 1 then b1 / 16 else 0)
    split_ifs
    · rw [hor16 _ (by omega)]
    · rw [hor16 _ (by omega)]
  | 2 =>
    show (if inLength ≥ 2 then
        byteToChar (b1 % 16 * 4 ||| if inLength = 3 then b2 / 64 else 0)
      else _paddingChar) = _
    by_cases h : inLength ≥ 2
    · have c : ¬ ((2 = 2 ∧ inLength < 2) ∨ (3 ≤ 2 ∧ inLength ≠ 3)) := by omega
      rw [if_pos h, if_neg c]
      show _ = byteToChar (b1 % 16 * 4 + if inLength = 3 then b2 / 64 else 0)
      split_ifs
      · rw [hor4 _ (by omega)]
      · rw [hor4 _ (by omega)]
    · have c : (2 = 2 ∧ inLength < 2) ∨ (3 ≤ 2 ∧ inLength ≠ 3) := by omega
      rw [if_neg h, if_pos c]
  | r + 3 =>
    show (if inLength = 3 then byteToChar (b2 % 64) else _paddingChar) = _
    by_cases h : inLength = 3
    · have c : ¬ ((r + 3 = 2 ∧ inLength < 2) ∨ (3 ≤ r + 3 ∧ inLength ≠ 3)) := by omega
      rw [if_pos h, if_neg c]
      rfl
    · have c : (r + 3 = 2 ∧ inLength < 2) ∨ (3 ≤ r + 3 ∧ inLength ≠ 3) := by omega
      rw [if_neg h, if_pos c]


/-! ## `decodeBlock` and `decodeBuffer`, cell by cell -/

theorem toByte_val (x : Nat) : (toByte x).val = x % 256 := rfl

theorem toByte_congr {x y : Nat} (h : x % 256 = y % 256) : toByte x = toByte y := by
  apply Fin.ext
  exact h

theorem charToByte_lt (c v : Nat) (h : charToByte c = .ok v) : v < 64 := by
  unfold charToByte at h
  split_ifs at h with h1 h2 h3 h4 h5 <;> simp only [Except.ok.injEq, reduceCtorEq] at h
  · omega
  · omega
  · have := (isdigit_iff c).mp h3
    have e : ('0'.toNat : Nat) = 48 := by decide
    rw [e] at h
    omega
  · have := (isupper_iff c).mp h5
    have e : ('A'.toNat : Nat) = 65 := by decide
    rw [e] at h
    omega
  · have := (isalpha_iff c).mp h4
    have := (isupper_iff c).not.mp h5
    have e : ('a'.toNat : Nat) = 97 := by decide
    rw [e] at h
    omega

theorem charVal_eq (c v : Nat) (h : charToByte c = .ok v) : charVal c = v := by
  unfold charVal
  rw [h]

theorem decodeBlock_spec (inp : Buffer Nat) (p : Nat) (out : Buffer byte) (q : Nat)
    (h : blockGood inp p) :
    (decodeBlock inp p out q).2 = .ok (decodedLen inp p) ∧
    ∀ j, (decodeBlock inp p out q).1 j =
      if q ≤ j ∧ j < q + decodedLen inp p then decodedByte inp p (j - q) else out j := by
  obtain ⟨⟨v0, h0⟩, ⟨v1, h1⟩, hrest⟩ := h
  have l0 := charToByte_lt _ _ h0
  have l1 := charToByte_lt _ _ h1
  have e0 : toByte ((v0 <<< 2) ||| ((v1 &&& 0x30) >>> 4)) = decodedByte inp p 0 := by
    unfold decodedByte
    rw [charVal_eq _ _ h0, charVal_eq _ _ h1, dec0_eq v0 l0 v1 l1]
  unfold decodeBlock
  simp only [Nat.add_zero]
  rw [h0, h1]
  simp only [e0]
  rcases hrest with ⟨p2, p3⟩ | ⟨p2, ⟨v2, h2⟩, hlast⟩
  · have e1 : toByte ((v1 &&& 0x0F) <<< 4) = decodedByte inp p 1 := by
      unfold decodedByte
      simp only [p2, ne_eq, not_true_eq_false, if_false]
      apply toByte_congr
      rw [charVal_eq _ _ h1, dec1a_eq v1 l1]
      omega
    have dl : decodedLen inp p = 2 := by simp [decodedLen, p2]
    rw [if_neg (by simp [p2]), if_neg (by simp [p3]), dl, e1]
    refine ⟨rfl, fun j => ?_⟩
    simp only [store_apply]
    by_cases c0 : j = q
    · subst c0; simp
    · by_cases c1 : j = q + 1
      · subst c1; simp
      · rw [if_neg c1, if_neg c0, if_neg (by omega)]
  · have l2 := charToByte_lt _ _ h2
    have e1 : toByte ((((out.store q (decodedByte inp p 0)).store (q + 1)
        (toByte ((v1 &&& 0x0F) <<< 4))) (q + 1)).val ||| ((v2 &&& 0x3C) >>> 2)) =
        decodedByte inp p 1 := by
      unfold decodedByte
      simp only [p2, ne_eq, not_false_eq_true, if_true, store_apply, toByte_val]
      rw [charVal_eq _ _ h1, charVal_eq _ _ h2, dec1a_eq v1 l1,
        dec1b_eq (v1 % 16) (by omega) v2 l2]
    rw [if_pos p2, h2]
    simp only [e1]
    rcases hlast with p3 | ⟨v3, h3⟩
    · have dl : decodedLen inp p = 2 := by simp [decodedLen, p3]
      rw [if_neg (by simp [p3]), dl]
      refine ⟨rfl, fun j => ?_⟩
      simp only [store_apply]
      by_cases c0 : j = q
      · subst c0; simp
      · by_cases c1 : j = q + 1
        · subst c1; simp
        · rw [if_neg c1, if_neg c1, if_neg c0, if_neg (by omega)]
    · have l3 := charToByte_lt _ _ h3
      by_cases p3 : inp (p + 3) = _paddingChar
      · have dl : decodedLen inp p = 2 := by simp [decodedLen, p3]
        rw [if_neg (by simp [p3]), dl]
        refine ⟨rfl, fun j => ?_⟩
        simp only [store_apply]
        by_cases c0 : j = q
        · subst c0; simp
        · by_cases c1 : j = q + 1
          · subst c1; simp
          · rw [if_neg c1, if_neg c1, if_neg c0, if_neg (by omega)]
      · have dl : decodedLen inp p = 3 := by simp [decodedLen, p2, p3]
        have e2 : toByte (((v2 &&& 0x03) <<< 6) ||| (v3 &&& 0x3F)) = decodedByte inp p 2 := by
          unfold decodedByte
          simp only []
          rw [charVal_eq _ _ h2, charVal_eq _ _ h3, dec2_eq v2 l2 v3 l3]
        rw [if_pos p3, h3, dl]
        simp only [e2]
        refine ⟨trivial, fun j => ?_⟩
        simp only [store_apply]
        by_cases c0 : j = q
        · subst c0; simp
        · by_cases c1 : j = q + 1
          · subst c1; simp
          · by_cases c2 : j = q + 2
            · subst c2; simp
            · rw [if_neg c2, if_neg c1, if_neg c1, if_neg c0, if_neg (by omega)]

theorem decodeBufferLoop_spec (inp : Buffer Nat) (n : Nat) :
    ∀ (p : Nat) (out : Buffer byte) (q len : Nat), (∀ k < n, blockGood inp (p + 4 * k)) →
      (decodeBufferLoop inp n p out q len).2 = .ok (len + sumLen inp p n) ∧
      ∀ j, (decodeBufferLoop inp n p out q len).1 j =
        if q ≤ j ∧ j < q + 3 * n ∧ (j - q) % 3 < decodedLen inp (p + 4 * ((j - q) / 3)) then
          decodedByte inp (p + 4 * ((j - q) / 3)) ((j - q) % 3)
        else out j := by
  induction n with
  | zero =>
    intro p out q len _
    refine ⟨rfl, fun j => ?_⟩
    rw [if_neg (by omega)]
    rfl
  | succ n ih =>
    intro p out q len hg
    have hg0 : blockGood inp p := by simpa using hg 0 (by omega)
    obtain ⟨s1, s2⟩ := decodeBlock_spec inp p out q hg0
    rcases hd : decodeBlock inp p out q with ⟨o1, r⟩
    rw [hd] at s1 s2
    simp only at s1 s2
    subst s1
    have hg1 : ∀ k < n, blockGood inp (p + 4 + 4 * k) := by
      intro k hk
      have := hg (k + 1) (by omega)
      have e : p + 4 * (k + 1) = p + 4 + 4 * k := by omega
      rwa [e] at this
    obtain ⟨t1, t2⟩ := ih (p + 4) o1 (q + 3) (len + decodedLen inp p) hg1
    have hl : decodedLen inp p ≤ 3 := by unfold decodedLen; split_ifs <;> omega
    have hl2 : 2 ≤ decodedLen inp p := by unfold decodedLen; split_ifs <;> omega
    refine ⟨?_, fun j => ?_⟩
    · simp only [decodeBufferLoop, hd, t1, sumLen]
      rw [Nat.add_assoc]
    · simp only [decodeBufferLoop, hd]
      rw [t2 j, s2 j]
      by_cases c1 : q + 3 ≤ j
      · have e1 : (j - q) / 3 = (j - (q + 3)) / 3 + 1 := by omega
        have e2 : (j - q) % 3 = (j - (q + 3)) % 3 := by omega
        have e3 : p + 4 * ((j - (q + 3)) / 3 + 1) = p + 4 + 4 * ((j - (q + 3)) / 3) := by omega
        rw [e1, e2, e3]
        by_cases c2 : j < q + 3 + 3 * n ∧
            (j - (q + 3)) % 3 < decodedLen inp (p + 4 + 4 * ((j - (q + 3)) / 3))
        · rw [if_pos ⟨c1, c2⟩, if_pos ⟨by omega, by omega, c2.2⟩]
        · rw [if_neg (fun h => c2 h.2), if_neg (by omega),
            if_neg (fun h => c2 ⟨by omega, h.2.2⟩)]
      · have e1 : (j - q) / 3 = 0 := by omega
        have e2 : (j - q) % 3 = j - q := by omega
        rw [if_neg (fun h => c1 h.1), e1, e2]
        by_cases c2 : q ≤ j ∧ j < q + decodedLen inp p
        · rw [if_pos c2, if_pos ⟨c2.1, by omega, by simpa using (by omega : j - q < decodedLen inp p)⟩]
          rfl
        · rw [if_neg c2, if_neg]
          intro h
          apply c2
          have := h.2.2
          simp only [Nat.mul_zero, Nat.add_zero] at this
          omega

theorem charToByte_of_class (c : Nat)
    (hc : (65 ≤ c ∧ c ≤ 90) ∨ (97 ≤ c ∧ c ≤ 122) ∨ (48 ≤ c ∧ c ≤ 57) ∨ c = 43 ∨ c = 47 ∨ c = 61)
    (hne : c ≠ 61) : ∃ v, charToByte c = .ok v := by
  unfold charToByte
  split_ifs with h1 h2 h3 h4 h5
  · exact ⟨_, rfl⟩
  · exact ⟨_, rfl⟩
  · exact ⟨_, rfl⟩
  · exact ⟨_, rfl⟩
  · exact ⟨_, rfl⟩
  · exfalso
    have e1 : ('+'.toNat : Nat) = 43 := by decide
    have e2 : ('/'.toNat : Nat) = 47 := by decide
    rw [e1] at h1
    rw [e2] at h2
    have := (isdigit_iff c).not.mp h3
    have := (isalpha_iff c).not.mp h4
    omega

theorem blockGood_of_valid (inp : Buffer Nat) (length : Nat)
    (hv : isValidEncoding inp length = true) (k : Nat) (hk : k < length / 4) :
    blockGood inp (0 + 4 * k) ∧ (k + 1 < length / 4 → decodedLen inp (0 + 4 * k) = 3) := by
  obtain ⟨h4, hall, hpad, hlast⟩ := (isValidEncoding_iff inp length).mp hv
  have hp := paddingChar_eq
  have n0 : inp (4 * k) ≠ 61 := hpad _ (by omega)
  have n1 : inp (4 * k + 1) ≠ 61 := hpad _ (by omega)
  rw [Nat.zero_add]
  constructor
  · refine ⟨charToByte_of_class _ (hall _ (by omega)) n0,
      charToByte_of_class _ (hall _ (by omega)) n1, ?_⟩
    rw [hp]
    by_cases c2 : inp (4 * k + 2) = 61
    · left
      refine ⟨c2, ?_⟩
      have e : 4 * k + 2 = length - 2 := by
        by_contra hne
        exact hpad (4 * k + 2) (by omega) c2
      have := hlast (by omega) (by rw [← e]; exact c2)
      have e2 : length - 1 = 4 * k + 3 := by omega
      rwa [e2] at this
    · right
      refine ⟨c2, charToByte_of_class _ (hall _ (by omega)) c2, ?_⟩
      by_cases c3 : inp (4 * k + 3) = 61
      · exact Or.inl c3
      · exact Or.inr (charToByte_of_class _ (hall _ (by omega)) c3)
  · intro hk1
    have n2 : inp (4 * k + 2) ≠ 61 := hpad _ (by omega)
    have n3 : inp (4 * k + 3) ≠ 61 := hpad _ (by omega)
    simp [decodedLen, hp, n2, n3]

theorem sumLen_full (inp : Buffer Nat) (n : Nat) :
    ∀ p, (∀ k, k + 1 < n → decodedLen inp (p + 4 * k) = 3) →
      sumLen inp p n = if n = 0 then 0 else 3 * (n - 1) + decodedLen inp (p + 4 * (n - 1)) := by
  induction n with
  | zero => intro p _; rfl
  | succ n ih =>
    intro p h
    have h1 : ∀ k, k + 1 < n → decodedLen inp (p + 4 + 4 * k) = 3 := by
      intro k hk
      have := h (k + 1) (by omega)
      have e : p + 4 * (k + 1) = p + 4 + 4 * k := by omega
      rwa [e] at this
    rw [sumLen, ih (p + 4) h1]
    by_cases hn : n = 0
    · subst hn
      simp
    · have h0 := h 0 (by omega)
      simp only [Nat.mul_zero, Nat.add_zero] at h0
      rw [if_neg hn, if_neg (by omega), h0]
      have e : p + 4 + 4 * (n - 1) = p + 4 * (n + 1 - 1) := by omega
      rw [e]
      omega

/-- What `decodeBuffer` does on a buffer the validator accepts. -/
theorem decodeBuffer_of_valid (inp : Buffer Nat) (out : Buffer byte) (inSize : Nat)
    (hv : isValidEncoding inp inSize = true) :
    (decodeBuffer inp out inSize).2 = .ok (if inSize = 0 then 0
      else 3 * (inSize / 4 - 1) + decodedLen inp (inSize - 4)) ∧
    ∀ j, (decodeBuffer inp out inSize).1 j =
      if j < 3 * (inSize / 4) ∧ j % 3 < decodedLen inp (4 * (j / 3)) then
        decodedByte inp (4 * (j / 3)) (j % 3)
      else out j := by
  have h4 : inSize % 4 = 0 := ((isValidEncoding_iff inp inSize).mp hv).1
  have hg := fun k hk => (blockGood_of_valid inp inSize hv k hk).1
  have hf := fun k hk => (blockGood_of_valid inp inSize hv k hk).2
  obtain ⟨s1, s2⟩ := decodeBufferLoop_spec inp (inSize / 4) 0 out 0 0 hg
  have hs := sumLen_full inp (inSize / 4) 0 (fun k hk => hf k (by omega) hk)
  unfold decodeBuffer
  rw [if_neg (by simpa using h4), if_neg (by simp [hv])]
  simp only []
  constructor
  · rw [s1, hs, Nat.zero_add]
    by_cases h0 : inSize = 0
    · subst h0; simp
    · rw [if_neg h0, if_neg (by omega)]
      have e : 0 + 4 * (inSize / 4 - 1) = inSize - 4 := by omega
      rw [e]
  · intro j
    rw [s2 j]
    simp only [Nat.zero_le, true_and, Nat.zero_add, Nat.sub_zero]


/-! ## The output of `encodeBuffer` -/

theorem getEncodedSize_eq (n : Nat) : getEncodedSize n = 4 * ((n + 2) / 3) := by
  unfold getEncodedSize
  split_ifs <;> omega

/-- The character at offset `j` of an encoding: padding at the places left over by a short
last block, and the table entry of a 6-bit number elsewhere. -/
theorem encChar_eq (inp : Buffer byte) (n j : Nat) :
    encChar inp n j =
      if (j % 4 = 2 ∧ (if j / 4 < n / 3 then 3 else n % 3) < 2) ∨
          (3 ≤ j % 4 ∧ (if j / 4 < n / 3 then 3 else n % 3) ≠ 3) then _paddingChar
      else byteToChar (sextet (inp (3 * (j / 4))).val (inp (3 * (j / 4) + 1)).val
        (inp (3 * (j / 4) + 2)).val (if j / 4 < n / 3 then 3 else n % 3) (j % 4)) := by
  unfold encChar
  exact blockChar_eq _ _ _ (inp _).isLt (inp _).isLt (inp _).isLt _ _

theorem encChar_valid (inp : Buffer byte) (n : Nat) :
    isValidEncoding (encChar inp n) (getEncodedSize n) = true := by
  rw [isValidEncoding_iff]
  have hp := paddingChar_eq
  have hL := getEncodedSize_eq n
  have hcl := fun j => byteToChar_class _ (sextet_lt (inp (3 * (j / 4))).val
    (inp (3 * (j / 4) + 1)).val (inp (3 * (j / 4) + 2)).val (inp _).isLt (inp _).isLt
    (inp _).isLt (if j / 4 < n / 3 then 3 else n % 3) (j % 4))
  refine ⟨by omega, fun j _ => ?_, fun j hj => ?_, fun h2 hpad => ?_⟩
  · rw [encChar_eq]
    by_cases c : (j % 4 = 2 ∧ (if j / 4 < n / 3 then 3 else n % 3) < 2) ∨
        (3 ≤ j % 4 ∧ (if j / 4 < n / 3 then 3 else n % 3) ≠ 3)
    · rw [if_pos c, hp]; simp
    · rw [if_neg c]
      have := (hcl j).1
      omega
  · rw [encChar_eq, if_neg]
    · exact (hcl j).2
    · split_ifs <;> omega
  · rw [encChar_eq] at hpad ⊢
    have e1 : (getEncodedSize n - 2) % 4 = 2 := by omega
    have e2 : (getEncodedSize n - 1) % 4 = 3 := by omega
    have e3 : (getEncodedSize n - 1) / 4 = (getEncodedSize n - 2) / 4 := by omega
    rw [e2, e3]
    rw [e1] at hpad
    by_cases c : (if (getEncodedSize n - 2) / 4 < n / 3 then 3 else n % 3) < 2
    · rw [if_pos (Or.inr ⟨by omega, by omega⟩)]
      exact hp
    · rw [if_neg (by omega)] at hpad
      exact absurd hpad (hcl (getEncodedSize n - 2) |> fun h => by rw [e1] at h; exact h.2)

theorem isValidEncoding_congr (b1 b2 : Buffer Nat) (n : Nat) (h : ∀ j < n, b1 j = b2 j) :
    isValidEncoding b1 n = isValidEncoding b2 n := by
  rw [Bool.eq_iff_iff, isValidEncoding_iff, isValidEncoding_iff]
  have h1 : ∀ j, j + 2 < n → b1 j = b2 j := fun j hj => h j (by omega)
  constructor
  · rintro ⟨a, b, c, d⟩
    refine ⟨a, fun i hi => ?_, fun i hi => ?_, fun h2 => ?_⟩
    · rw [← h i hi]; exact b i hi
    · rw [← h1 i hi]; exact c i hi
    · rw [← h _ (by omega), ← h _ (by omega)]; exact d h2
  · rintro ⟨a, b, c, d⟩
    refine ⟨a, fun i hi => ?_, fun i hi => ?_, fun h2 => ?_⟩
    · rw [h i hi]; exact b i hi
    · rw [h1 i hi]; exact c i hi
    · rw [h _ (by omega), h _ (by omega)]; exact d h2

theorem encodeBuffer_valid (inp : Buffer byte) (out : Buffer Nat) (n : Nat) :
    isValidEncoding (encodeBuffer inp out n).1 (encodeBuffer inp out n).2 = true := by
  rw [encodeBuffer_length, ← encChar_valid inp n]
  apply isValidEncoding_congr
  intro j hj
  rw [encodeBuffer_apply, if_pos hj]


/-! ## Decoding what `encodeBuffer` wrote -/

theorem toByte_self (b : byte) : toByte b.val = b := by
  apply Fin.ext
  show b.val % 256 = b.val
  have := b.isLt
  omega

theorem charVal_byteToChar (v : Nat) (h : v < 64) : charVal (byteToChar v) = v :=
  charVal_eq _ _ (charToByte_byteToChar v h)

/-- Decoding a block that holds the four characters `encodeBlock` writes for `b0 b1 b2`. -/
theorem decode_block_of_encoded (e : Buffer Nat) (p : Nat) (b0 b1 b2 : byte) (len : Nat)
    (hlen : 1 ≤ len ∧ len ≤ 3)
    (he : ∀ r < 4, e (p + r) = blockChar b0.val b1.val b2.val len r) :
    decodedLen e p = (if len = 3 then 3 else 2) ∧
    decodedByte e p 0 = b0 ∧
    (2 ≤ len → decodedByte e p 1 = b1) ∧
    (len = 1 → decodedByte e p 1 = toByte 0) ∧
    (len = 3 → decodedByte e p 2 = b2) := by
  have hp := paddingChar_eq
  have l0 := b0.isLt
  have l1 := b1.isLt
  have l2 := b2.isLt
  have hs := fun r => sextet_lt b0.val b1.val b2.val l0 l1 l2 len r
  have hc := fun r => (byteToChar_class _ (hs r)).2
  have hv := fun r => charVal_byteToChar _ (hs r)
  have h0 : e p = byteToChar (sextet b0.val b1.val b2.val len 0) := by
    have := he 0 (by omega)
    rw [blockChar_eq _ _ _ l0 l1 l2, if_neg (by omega)] at this
    exact this
  have h1 : e (p + 1) = byteToChar (sextet b0.val b1.val b2.val len 1) := by
    have := he 1 (by omega)
    rw [blockChar_eq _ _ _ l0 l1 l2, if_neg (by omega)] at this
    exact this
  have h2 : e (p + 2) = if len < 2 then 61 else
      byteToChar (sextet b0.val b1.val b2.val len 2) := by
    have := he 2 (by omega)
    rw [blockChar_eq _ _ _ l0 l1 l2, hp] at this
    rw [this]
    by_cases c : len < 2
    · rw [if_pos (by omega), if_pos c]
    · rw [if_neg (by omega), if_neg c]
  have h3 : e (p + 3) = if len ≠ 3 then 61 else
      byteToChar (sextet b0.val b1.val b2.val len 3) := by
    have := he 3 (by omega)
    rw [blockChar_eq _ _ _ l0 l1 l2, hp] at this
    rw [this]
    by_cases c : len ≠ 3
    · rw [if_pos (by omega), if_pos c]
    · rw [if_neg (by omega), if_neg c]
  have s0 : sextet b0.val b1.val b2.val len 0 = b0.val / 4 := rfl
  have s1 : sextet b0.val b1.val b2.val len 1 =
      (b0.val % 4) * 16 + (if len > 1 then b1.val / 16 else 0) := rfl
  have s2 : sextet b0.val b1.val b2.val len 2 =
      (b1.val % 16) * 4 + (if len = 3 then b2.val / 64 else 0) := rfl
  have s3 : sextet b0.val b1.val b2.val len 3 = b2.val % 64 := rfl
  have b0e : decodedByte e p 0 = b0 := by
    unfold decodedByte
    simp only []
    rw [h0, h1, hv, hv, s0, s1, ← toByte_self b0]
    apply toByte_congr
    simp only [toByte_val]
    split_ifs <;> omega
  have hc2 := hc 2
  have hc3 := hc 3
  have hv1 := hv 1
  have hv2 := hv 2
  have hv3 := hv 3
  obtain rfl | rfl | rfl : len = 1 ∨ len = 2 ∨ len = 3 := by omega
  · simp only [Nat.lt_irrefl, if_false, Nat.one_lt_ofNat, if_true, ne_eq, OfNat.one_ne_ofNat,
      not_false_eq_true, gt_iff_lt, Nat.add_zero] at h2 h3 s1 s2
    refine ⟨?_, b0e, fun h => absurd h (by omega), fun _ => ?_, fun h => absurd h (by omega)⟩
    · simp [decodedLen, h2, hp]
    · unfold decodedByte
      simp only []
      rw [h1, h2, hp, if_neg (by simp), hv1, s1]
      apply toByte_congr
      omega
  · have c1 : ¬ (2 < 2) := by omega
    have c2 : (2 : Nat) ≠ 3 := by omega
    have c3 : (2 : Nat) > 1 := by omega
    rw [if_neg c1] at h2
    rw [if_pos c2] at h3
    rw [if_pos c3] at s1
    rw [if_neg c2, Nat.add_zero] at s2
    refine ⟨?_, b0e, fun _ => ?_, fun h => absurd h (by omega), fun h => absurd h (by omega)⟩
    · simp [decodedLen, h3, hp]
    · unfold decodedByte
      simp only []
      rw [h1, h2, hp, if_pos hc2, hv1, hv2, s1, s2, ← toByte_self b1]
      apply toByte_congr
      simp only [toByte_val]
      omega
  · have c1 : ¬ (3 < 2) := by omega
    have c2 : ¬ ((3 : Nat) ≠ 3) := by omega
    have c3 : (3 : Nat) > 1 := by omega
    rw [if_neg c1] at h2
    rw [if_neg c2] at h3
    rw [if_pos c3] at s1
    rw [if_pos rfl] at s2
    refine ⟨?_, b0e, fun _ => ?_, fun h => absurd h (by omega), fun _ => ?_⟩
    · unfold decodedLen
      rw [h2, h3, hp, if_pos ⟨hc2, hc3⟩, if_pos rfl]
    · unfold decodedByte
      simp only []
      rw [h1, h2, hp, if_pos hc2, hv1, hv2, s1, s2, ← toByte_self b1]
      apply toByte_congr
      simp only [toByte_val]
      omega
    · unfold decodedByte
      simp only []
      rw [h2, h3, hv2, hv3, s2, s3, ← toByte_self b2]
      apply toByte_congr
      simp only [toByte_val]
      omega

/-- The block `k` of an encoding holds what `encodeBlock` writes for the bytes of chunk `k`. -/
theorem encodeBuffer_block (inp : Buffer byte) (out : Buffer Nat) (n k : Nat)
    (hk : 4 * k < getEncodedSize n) :
    ∀ r < 4, (encodeBuffer inp out n).1 (4 * k + r) =
      blockChar (inp (3 * k)).val (inp (3 * k + 1)).val (inp (3 * k + 2)).val
        (if k < n / 3 then 3 else n % 3) r := by
  intro r hr
  have hL := getEncodedSize_eq n
  rw [encodeBuffer_apply, if_pos (by omega)]
  unfold encChar
  have e1 : (4 * k + r) / 4 = k := by omega
  have e2 : (4 * k + r) % 4 = r := by omega
  rw [e1, e2]

/-- What `decodeBuffer` makes of the output of `encodeBuffer`: the bytes encoded come back,
and the length returned is one more than their number when that number is 1 modulo 3,
the byte after them being set to 0. -/
theorem decodeBuffer_encodeBuffer (inp : Buffer byte) (out : Buffer Nat) (out2 : Buffer byte)
    (n : Nat) :
    (decodeBuffer (encodeBuffer inp out n).1 out2 (encodeBuffer inp out n).2).2 =
      .ok (if n % 3 = 1 then n + 1 else n) ∧
    ∀ j, (decodeBuffer (encodeBuffer inp out n).1 out2 (encodeBuffer inp out n).2).1 j =
      if j < n then inp j else if j = n ∧ n % 3 = 1 then toByte 0 else out2 j := by
  have hv := encodeBuffer_valid inp out n
  obtain ⟨d1, d2⟩ := decodeBuffer_of_valid _ out2 _ hv
  rw [encodeBuffer_length] at d1 d2 ⊢
  have hL := getEncodedSize_eq n
  have hblk : ∀ k, 4 * k < getEncodedSize n →
      decodedLen (encodeBuffer inp out n).1 (4 * k) =
        (if (if k < n / 3 then 3 else n % 3) = 3 then 3 else 2) ∧
      decodedByte (encodeBuffer inp out n).1 (4 * k) 0 = inp (3 * k) ∧
      (2 ≤ (if k < n / 3 then 3 else n % 3) →
        decodedByte (encodeBuffer inp out n).1 (4 * k) 1 = inp (3 * k + 1)) ∧
      ((if k < n / 3 then 3 else n % 3) = 1 →
        decodedByte (encodeBuffer inp out n).1 (4 * k) 1 = toByte 0) ∧
      ((if k < n / 3 then 3 else n % 3) = 3 →
        decodedByte (encodeBuffer inp out n).1 (4 * k) 2 = inp (3 * k + 2)) := by
    intro k hk
    apply decode_block_of_encoded
    · split_ifs <;> omega
    · exact encodeBuffer_block inp out n k hk
  constructor
  · rw [d1]
    by_cases h0 : getEncodedSize n = 0
    · have : n = 0 := by omega
      subst this
      simp [h0]
    · have e : getEncodedSize n - 4 = 4 * (getEncodedSize n / 4 - 1) := by omega
      rw [if_neg h0, e, (hblk _ (by omega)).1]
      congr 1
      split_ifs <;> omega
  · intro j
    rw [d2 j]
    by_cases hj : j < n
    · have hk : 4 * (j / 3) < getEncodedSize n := by omega
      obtain ⟨b1, b2, b3, b4, b5⟩ := hblk (j / 3) hk
      rw [if_pos hj, b1]
      have hr : j % 3 = 0 ∨ j % 3 = 1 ∨ j % 3 = 2 := by omega
      have ej : j = 3 * (j / 3) + j % 3 := by omega
      rcases hr with hr | hr | hr
      · rw [if_pos ⟨by omega, by split_ifs <;> omega⟩, hr, b2]
        congr 1
        omega
      · rw [if_pos ⟨by omega, by split_ifs <;> omega⟩, hr, b3 (by split_ifs <;> omega)]
        congr 1
        omega
      · rw [if_pos ⟨by omega, by split_ifs <;> omega⟩, hr, b5 (by split_ifs <;> omega)]
        congr 1
        omega
    · rw [if_neg hj]
      by_cases hn : j = n ∧ n % 3 = 1
      · obtain ⟨rfl, h1⟩ := hn
        have hk : 4 * (j / 3) < getEncodedSize j := by omega
        obtain ⟨b1, b2, b3, b4, b5⟩ := hblk (j / 3) hk
        have hlen : (if j / 3 < j / 3 then 3 else j % 3) = 1 := by
          rw [if_neg (by omega)]; exact h1
        rw [hlen] at b1 b4
        have c1 : j < 3 * (getEncodedSize j / 4) ∧ j % 3 < (if 1 = 3 then 3 else 2) :=
          ⟨by omega, by rw [h1]; simp⟩
        have c2 : j = j ∧ j % 3 = 1 := ⟨rfl, h1⟩
        rw [b1, if_pos c1, if_pos c2, h1]
        exact b4 rfl
      · rw [if_neg hn, if_neg]
        rintro ⟨c1, c2⟩
        have hk : 4 * (j / 3) < getEncodedSize n := by omega
        rw [(hblk (j / 3) hk).1] at c2
        split_ifs at c2 <;> omega


/-! ## Lines of an encoded file -/

theorem read_succ {α : Type} (b : Buffer α) (p n : Nat) :
    b.read p (n + 1) = b.read p n ++ [b (p + n)] := by
  simp [Buffer.read, List.range_succ]

theorem read_getElem {α : Type} (b : Buffer α) (p n i : Nat) (h : i < (b.read p n).length) :
    (b.read p n)[i] = b (p + i) := by
  simp [Buffer.read]

theorem read_congr {α : Type} (b1 b2 : Buffer α) (p n : Nat)
    (h : ∀ i < n, b1 (p + i) = b2 (p + i)) : b1.read p n = b2.read p n := by
  unfold Buffer.read
  apply List.map_congr_left
  intro i hi
  exact h i (List.mem_range.mp hi)

theorem mem_read {α : Type} (b : Buffer α) (p n : Nat) (x : α) :
    x ∈ b.read p n ↔ ∃ i < n, b (p + i) = x := by
  simp [Buffer.read]

theorem read_add {α : Type} (b : Buffer α) (p n m : Nat) :
    b.read p (n + m) = b.read p n ++ b.read (p + n) m := by
  induction m with
  | zero => simp [Buffer.read]
  | succ m ih =>
    rw [← Nat.add_assoc, read_succ, ih, read_succ, List.append_assoc, Nat.add_assoc]

/-- The C string at a buffer whose first NUL is at offset `r`. -/
theorem cString_eq (b : Buffer Nat) (size r : Nat) (hr : r < size) (h0 : b r = 0)
    (hnz : ∀ i < r, b i ≠ 0) : cString b size = b.read 0 r := by
  obtain ⟨m, rfl⟩ : ∃ m, size = r + (m + 1) := ⟨size - r - 1, by omega⟩
  unfold cString
  rw [read_add, List.takeWhile_append_of_pos]
  · have e : b.read (0 + r) (m + 1) = b r :: b.read (r + 1) m := by
      simp only [Buffer.read, List.range_succ_eq_map, List.map_cons, List.map_map, Nat.zero_add,
        Nat.add_zero]
      congr 1
      apply List.map_congr_left
      intro i _
      simp only [Function.comp, Nat.succ_eq_add_one]
      congr 1
      omega
    rw [e, List.takeWhile_cons_of_neg (by simp [h0]), List.append_nil]
  · intro a ha
    obtain ⟨i, hi, rfl⟩ := (mem_read b 0 r a).mp ha
    rw [Nat.zero_add]
    simpa using hnz i hi

/-- Every character of an encoding is `+` (43) or above. -/
theorem encChar_ge (inp : Buffer byte) (n j : Nat) : 43 ≤ encChar inp n j := by
  rw [encChar_eq]
  have hcl := byteToChar_class _ (sextet_lt (inp (3 * (j / 4))).val
    (inp (3 * (j / 4) + 1)).val (inp (3 * (j / 4) + 2)).val (inp _).isLt (inp _).isLt
    (inp _).isLt (if j / 4 < n / 3 then 3 else n % 3) (j % 4))
  by_cases c : (j % 4 = 2 ∧ (if j / 4 < n / 3 then 3 else n % 3) < 2) ∨
      (3 ≤ j % 4 ∧ (if j / 4 < n / 3 then 3 else n % 3) ≠ 3)
  · rw [if_pos c, paddingChar_eq]
    omega
  · rw [if_neg c]
    have := hcl.1
    omega

theorem blockChar_congr (b0 b1 b2 b1' b2' len r : Nat) (h1 : len > 1 → b1 = b1')
    (h2 : len = 3 → b2 = b2') :
    blockChar b0 b1 b2 len r = blockChar b0 b1' b2' len r := by
  by_cases c3 : len = 3
  · rw [h1 (by omega), h2 c3]
  · by_cases c1 : len > 1
    · rw [h1 c1]
      unfold blockChar
      split <;> simp [c3]
    · have c2 : ¬ (2 ≤ len) := by omega
      unfold blockChar
      split <;> simp [c1, c2, c3]

theorem encChar_congr (inp1 inp2 : Buffer byte) (n j : Nat) (h : ∀ i < n, inp1 i = inp2 i)
    (hj : j < getEncodedSize n) : encChar inp1 n j = encChar inp2 n j := by
  have hL := getEncodedSize_eq n
  unfold encChar
  rw [h (3 * (j / 4)) (by omega)]
  apply blockChar_congr
  · intro hl
    rw [h _ (by split_ifs at hl <;> omega)]
  · intro hl
    rw [h _ (by split_ifs at hl <;> omega)]

theorem encList_length (l : List byte) : (encList l).length = getEncodedSize l.length := by
  simp [encList, Buffer.read]

/-- The characters `encodeBuffer` writes for a buffer that holds the bytes `l`. -/
theorem encodeBuffer_read (inp : Buffer byte) (out : Buffer Nat) (l : List byte)
    (h : ∀ i < l.length, inp i = l.getD i (toByte 0)) :
    (encodeBuffer inp out l.length).1.read 0 (getEncodedSize l.length) = encList l := by
  unfold encList
  apply read_congr
  intro j hj
  rw [Nat.zero_add, encodeBuffer_apply, encodeBuffer_apply, if_pos hj, if_pos hj]
  apply encChar_congr _ _ _ _ _ hj
  intro i hi
  rw [h i hi]
  rfl

theorem encList_ge (l : List byte) : ∀ c ∈ encList l, 43 ≤ c := by
  intro c hc
  obtain ⟨i, hi, rfl⟩ := (mem_read _ _ _ _).mp hc
  rw [Nat.zero_add, encodeBuffer_apply, if_pos hi]
  exact encChar_ge _ _ _

/-- The buffer of a line read back from an encoded file is the buffer `encodeBuffer` wrote. -/
theorem ofList_encList (l : List byte) :
    Buffer.ofList (encList l) 0 =
      (encodeBuffer (Buffer.ofList l (toByte 0)) (fun _ => 0) l.length).1 := by
  funext j
  unfold Buffer.ofList
  by_cases hj : j < getEncodedSize l.length
  · have hj2 : j < (encList l).length := by rw [encList_length]; exact hj
    rw [List.getD_eq_getElem _ _ hj2]
    unfold encList
    rw [read_getElem, Nat.zero_add]
    rfl
  · rw [List.getD_eq_default _ _ (by rw [encList_length]; omega), encodeBuffer_apply, if_neg hj]

/-- The line `encodeFile` writes for a chunk: the C string at the output buffer is the
encoding of the chunk, when the cell after the encoding holds NUL. -/
theorem cString_encodeBuffer (inp : Buffer byte) (out : Buffer Nat) (l : List byte)
    (size : Nat) (h : ∀ i < l.length, inp i = l.getD i (toByte 0))
    (hs : getEncodedSize l.length < size) (h0 : out (getEncodedSize l.length) = 0) :
    cString (encodeBuffer inp out l.length).1 size = encList l := by
  rw [cString_eq _ size (getEncodedSize l.length) hs, encodeBuffer_read inp out l h]
  · rw [encodeBuffer_apply, if_neg (by omega)]
    exact h0
  · intro i hi
    rw [encodeBuffer_apply, if_pos hi]
    have := encChar_ge inp l.length i
    omega


/-! ## The functions with machine integers, on buffers below `2 ^ 32` -/

theorem two_pow_32 : (2 : Nat) ^ 32 = 4294967296 := by norm_num

/-- The first loop of the validator ends when the bound is below `2 ^ 32`. -/
theorem isValidEncodingLoop1_eq (buffer : Buffer Nat) (length : Nat) (hl : length < 2 ^ 32) :
    ∀ (fuel i : Nat), i ≤ length → length - i < fuel →
      isValidEncodingLoop1 buffer length fuel i =
        some (!(List.range' i (length - i)).any (fun i =>
          !isalnum (buffer i) && buffer i != '+'.toNat && buffer i != '/'.toNat &&
            buffer i != _paddingChar)) := by
  rw [two_pow_32] at hl
  intro fuel
  induction fuel with
  | zero => intro i _ h; omega
  | succ fuel ih =>
    intro i hi hf
    unfold isValidEncodingLoop1
    by_cases c : i < length
    · rw [if_pos c]
      have e : length - i = (length - (i + 1)) + 1 := by omega
      have e2 : (i + 1) % 2 ^ 32 = i + 1 := by rw [two_pow_32]; omega
      rw [e, List.range'_succ, List.any_cons, e2]
      split_ifs with hb
      · rw [hb]; rfl
      · rw [ih (i + 1) (by omega) (by omega)]
        have hb2 : (!isalnum (buffer i) && buffer i != '+'.toNat && buffer i != '/'.toNat &&
            buffer i != _paddingChar) = false := by simpa using hb
        rw [hb2, Bool.false_or]
    · rw [if_neg c]
      have e : length - i = 0 := by omega
      rw [e]
      rfl

/-- The second loop of the validator ends when the bound is below `2 ^ 32`. -/
theorem isValidEncodingLoop2_eq (buffer : Buffer Nat) (length : Nat) (hl : length < 2 ^ 32) :
    ∀ (fuel i : Nat), i ≤ length - 2 → length - 2 - i < fuel →
      isValidEncodingLoop2 buffer length fuel i =
        some (!(List.range' i (length - 2 - i)).any (fun i => buffer i == _paddingChar)) := by
  rw [two_pow_32] at hl
  intro fuel
  induction fuel with
  | zero => intro i _ h; omega
  | succ fuel ih =>
    intro i hi hf
    unfold isValidEncodingLoop2
    by_cases c : i < length - 2
    · rw [if_pos c]
      have e : length - 2 - i = (length - 2 - (i + 1)) + 1 := by omega
      have e2 : (i + 1) % 2 ^ 32 = i + 1 := by rw [two_pow_32]; omega
      rw [e, List.range'_succ, List.any_cons, e2]
      split_ifs with hb
      · rw [hb]; rfl
      · rw [ih (i + 1) (by omega) (by omega)]
        have hb2 : (buffer i == _paddingChar) = false := by simpa using hb
        rw [hb2, Bool.false_or]
    · rw [if_neg c]
      have e : length - 2 - i = 0 := by omega
      rw [e]
      rfl

/-- On a buffer of fewer than `2 ^ 32` characters `isValidEncoding32` returns, with the
value of `isValidEncoding`. -/
theorem isValidEncoding32_eq (fuel : Nat) (buffer : Buffer Nat) (length : Nat)
    (hl : length < 2 ^ 32) (hf : length < fuel) :
    isValidEncoding32 fuel buffer length = some (isValidEncoding buffer length) := by
  unfold isValidEncoding32 isValidEncoding
  rw [isValidEncodingLoop1_eq buffer length hl fuel 0 (Nat.zero_le _) (by omega),
    isValidEncodingLoop2_eq buffer length hl fuel 0 (Nat.zero_le _) (by omega),
    Nat.sub_zero, Nat.sub_zero, ← List.range_eq_range', ← List.range_eq_range']
  by_cases h4 : length % 4 ≠ 0
  · rw [if_pos h4, if_pos h4]
  · rw [if_neg h4, if_neg h4]
    cases h1 : (List.range length).any (fun i =>
        !isalnum (buffer i) && buffer i != '+'.toNat && buffer i != '/'.toNat &&
          buffer i != _paddingChar)
    · simp only [Bool.not_false, Bool.false_eq_true, if_false]
      by_cases h0 : length ≠ 0
      · rw [if_pos h0, if_pos h0]
        cases h2 : (List.range (length - 2)).any (fun i => buffer i == _paddingChar)
        · simp only [Bool.not_false, Bool.false_eq_true, if_false]
          split_ifs <;> rfl
        · simp
      · rw [if_neg h0, if_neg h0]
    · simp

/-- On a buffer of fewer than `2 ^ 32` characters `decodeBuffer32` returns, with the result
of `decodeBuffer`. -/
theorem decodeBuffer32_eq (fuel : Nat) (inp : Buffer Nat) (out : Buffer byte) (inSize : Nat)
    (hl : inSize < 2 ^ 32) (hf : inSize < fuel) :
    decodeBuffer32 fuel inp out inSize = some (decodeBuffer inp out inSize) := by
  unfold decodeBuffer32 decodeBuffer
  rw [isValidEncoding32_eq fuel inp inSize hl hf]
  have e : (inSize / 4) % 2 ^ 32 = inSize / 4 := by
    rw [two_pow_32] at hl ⊢
    omega
  by_cases h4 : inSize % 4 ≠ 0
  · rw [if_pos h4, if_pos h4]
  · rw [if_neg h4, if_neg h4]
    cases hv : isValidEncoding inp inSize
    · simp
    · simp only [Bool.not_true, Bool.false_eq_true, if_false]
      rw [e]

/-- The characters `encodeBuffer32` writes are those `encodeBuffer` writes, as long as the
number of chunks fits 32 bits. -/
theorem encodeBuffer32_fst (inp : Buffer byte) (out : Buffer Nat) (inSize : Nat)
    (h : inSize / 3 < 2 ^ 32) :
    (encodeBuffer32 inp out inSize).1 = (encodeBuffer inp out inSize).1 := by
  have e : (inSize % 3) % 2 ^ 32 = inSize % 3 := by
    rw [two_pow_32]
    omega
  have e1 : (inSize / 3) % 2 ^ 32 = inSize / 3 := Nat.mod_eq_of_lt h
  unfold encodeBuffer32 encodeBuffer
  rw [e, e1]
  simp only []
  split_ifs <;> rfl

/-- With a bound of `2 ^ 32` or more the first loop never ends by reaching the bound. -/
theorem isValidEncodingLoop1_ne_true (buffer : Buffer Nat) (length : Nat)
    (hl : 2 ^ 32 ≤ length) :
    ∀ (fuel i : Nat), i < 2 ^ 32 → isValidEncodingLoop1 buffer length fuel i ≠ some true := by
  intro fuel
  induction fuel with
  | zero => intro i _ h; cases h
  | succ fuel ih =>
    intro i hi
    unfold isValidEncodingLoop1
    rw [if_pos (by omega)]
    split_ifs
    · intro h; cases h
    · exact ih _ (Nat.mod_lt _ (by norm_num))

/-- On `2 ^ 32` characters or more `isValidEncoding32` does not return true. -/
theorem isValidEncoding32_ne_true (fuel : Nat) (buffer : Buffer Nat) (length : Nat)
    (hl : 2 ^ 32 ≤ length) : isValidEncoding32 fuel buffer length ≠ some true := by
  unfold isValidEncoding32
  have := isValidEncodingLoop1_ne_true buffer length hl fuel 0 (by norm_num)
  by_cases h4 : length % 4 ≠ 0
  · rw [if_pos h4]
    intro h; cases h
  · rw [if_neg h4]
    rcases h1 : isValidEncodingLoop1 buffer length fuel 0 with _ | b
    · intro h; cases h
    · cases b
      · intro h; cases h
      · exact absurd h1 this

/-- A call of `decodeBuffer32` that returns a length was made on fewer than `2 ^ 32`
characters, and is the call of `decodeBuffer`. -/
theorem decodeBuffer32_ok (fuel : Nat) (inp : Buffer Nat) (out : Buffer byte) (inSize : Nat)
    (r : Buffer byte × Except Error Nat) (len : Nat)
    (h : decodeBuffer32 fuel inp out inSize = some r) (hr : r.2 = .ok len) :
    inSize < 2 ^ 32 := by
  by_contra hc
  have hl : 2 ^ 32 ≤ inSize := by omega
  have hne := isValidEncoding32_ne_true fuel inp inSize hl
  unfold decodeBuffer32 at h
  split_ifs at h
  · cases h; cases hr
  · rcases hv : isValidEncoding32 fuel inp inSize with _ | b
    · rw [hv] at h; cases h
    · cases b
      · rw [hv] at h
        cases h
        cases hr
      · exact hne hv


/-! ## The chunks of a file -/

theorem chunksLoop_join (c n : Nat) : ∀ fin : List byte, (chunksLoop c n fin).flatten =
    fin.take (n * c) := by
  induction n with
  | zero => intro fin; simp [chunksLoop]
  | succ n ih =>
    intro fin
    rw [chunksLoop, List.flatten_cons, ih]
    have e : (n + 1) * c = c + n * c := by ring
    rw [e, List.take_add]

theorem chunksLoop_length (c n : Nat) : ∀ fin : List byte, n * c ≤ fin.length →
    ∀ l ∈ chunksLoop c n fin, l.length = c := by
  induction n with
  | zero => intro fin _ l hl; simp [chunksLoop] at hl
  | succ n ih =>
    intro fin hlen l hl
    have e : (n + 1) * c = n * c + c := by ring
    rw [chunksLoop, List.mem_cons] at hl
    rcases hl with rfl | hl
    · rw [List.length_take]; omega
    · exact ih (fin.drop c) (by rw [List.length_drop]; omega) l hl

theorem chunks_join (c : Nat) (f : List byte) : (chunks c f).flatten = f := by
  unfold chunks
  rw [List.flatten_append, chunksLoop_join]
  by_cases hr : f.length % c ≠ 0
  · rw [if_pos hr]
    simp
  · rw [if_neg hr]
    have : f.length / c * c = f.length := by
      have := Nat.div_add_mod f.length c
      rw [Nat.mul_comm] at this
      omega
    simp [this]

theorem chunks_length (c : Nat) (f : List byte) (hc : 0 < c) (hc3 : c % 3 = 0)
    (hlast : f.length % c % 3 ≠ 1) :
    ∀ l ∈ chunks c f, l ≠ [] ∧ l.length % 3 ≠ 1 := by
  intro l hl
  unfold chunks at hl
  rcases List.mem_append.mp hl with h | h
  · have := chunksLoop_length c (f.length / c) f (Nat.div_mul_le_self _ _) l h
    constructor
    · intro hn; rw [hn] at this; simp at this; omega
    · omega
  · by_cases hr : f.length % c ≠ 0
    · rw [if_pos hr] at h
      simp only [List.mem_singleton] at h
      have hdl : l.length = f.length % c := by
        rw [h, List.length_drop]
        have := Nat.div_add_mod f.length c
        rw [Nat.mul_comm] at this
        omega
      constructor
      · intro hn; rw [hn] at hdl; simp at hdl; omega
      · omega
    · rw [if_neg hr] at h
      simp at h

theorem chunks_le (c : Nat) (f : List byte) (hc : 0 < c) : ∀ l ∈ chunks c f, l.length ≤ c := by
  intro l hl
  unfold chunks at hl
  rcases List.mem_append.mp hl with h | h
  · exact Nat.le_of_eq (chunksLoop_length c (f.length / c) f (Nat.div_mul_le_self _ _) l h)
  · by_cases hr : f.length % c ≠ 0
    · rw [if_pos hr] at h
      simp only [List.mem_singleton] at h
      rw [h, List.length_drop]
      have := Nat.div_add_mod f.length c
      rw [Nat.mul_comm] at this
      have := Nat.mod_lt f.length hc
      omega
    · rw [if_neg hr] at h
      simp at h


/-! ## Failure and success of `decodeBuffer` -/

/-- A call of `decodeBuffer` that returns was made on a buffer the validator accepts. -/
theorem valid_of_decodeBuffer_ok (inp : Buffer Nat) (out : Buffer byte) (inSize len : Nat)
    (h : (decodeBuffer inp out inSize).2 = .ok len) : isValidEncoding inp inSize = true := by
  by_contra hv
  have hv2 : isValidEncoding inp inSize = false := by simpa using hv
  unfold decodeBuffer at h
  by_cases h4 : inSize % 4 ≠ 0
  · rw [if_pos h4] at h
    cases h
  · rw [if_neg h4, if_pos (by simp [hv2])] at h
    cases h

/-- A call of `decodeBuffer` that throws leaves the output buffer as it was. -/
theorem decodeBuffer_error_unchanged (inp : Buffer Nat) (out : Buffer byte) (inSize : Nat)
    (e : Error) (h : (decodeBuffer inp out inSize).2 = .error e) :
    (decodeBuffer inp out inSize).1 = out := by
  by_cases h4 : inSize % 4 ≠ 0
  · unfold decodeBuffer
    rw [if_pos h4]
  · by_cases hv : isValidEncoding inp inSize = true
    · rw [(decodeBuffer_of_valid inp out inSize hv).1] at h
      cases h
    · unfold decodeBuffer
      rw [if_neg h4, if_pos (by simpa using hv)]

theorem decodedLen_le (inp : Buffer Nat) (p : Nat) : decodedLen inp p ≤ 3 := by
  unfold decodedLen
  split_ifs <;> omega

/-- The length `decodeBuffer` returns and the cells it leaves alone. -/
theorem decodeBuffer_ok_bound (inp : Buffer Nat) (out : Buffer byte) (inSize len : Nat)
    (h : (decodeBuffer inp out inSize).2 = .ok len) :
    len ≤ getDecodedSize inSize ∧
    ∀ j, getDecodedSize inSize ≤ j → (decodeBuffer inp out inSize).1 j = out j := by
  have hv := valid_of_decodeBuffer_ok inp out inSize len h
  obtain ⟨d1, d2⟩ := decodeBuffer_of_valid inp out inSize hv
  rw [d1] at h
  have hl := decodedLen_le inp (inSize - 4)
  have h4 : inSize % 4 = 0 := ((isValidEncoding_iff inp inSize).mp hv).1
  unfold getDecodedSize
  constructor
  · simp only [Except.ok.injEq] at h
    split_ifs at h <;> omega
  · intro j hj
    rw [d2 j, if_neg (by omega)]


/-! ## The two directions of the alphabet table -/

theorem byteToChar_charToByte_small : ∀ c < 123,
    byteToChar (charVal c) = c ∨ charToByte c = .error Error.InvalidCharacter := by
  decide!

theorem charToByte_ok_le (c v : Nat) (h : charToByte c = .ok v) : c ≤ 122 := by
  unfold charToByte at h
  have e1 : ('+'.toNat : Nat) = 43 := by decide
  have e2 : ('/'.toNat : Nat) = 47 := by decide
  rw [e1, e2] at h
  split_ifs at h with h1 h2 h3 h4 h5
  · omega
  · omega
  · have := (isdigit_iff c).mp h3; omega
  · have := (isupper_iff c).mp h5; omega
  · have := (isalpha_iff c).mp h4; omega

theorem byteToChar_charToByte (c v : Nat) (h : charToByte c = .ok v) : byteToChar v = c := by
  rcases byteToChar_charToByte_small c (by have := charToByte_ok_le c v h; omega) with h1 | h1
  · rw [charVal_eq c v h] at h1
    exact h1
  · rw [h] at h1
    cases h1

theorem byteToChar_injective (v w : Nat) (hv : v < 64) (hw : w < 64)
    (h : byteToChar v = byteToChar w) : v = w := by
  have e1 := charToByte_byteToChar v hv
  have e2 := charToByte_byteToChar w hw
  rw [h, e2] at e1
  simpa using e1.symm

/-- What `charToByte` does, by the class of the character. -/
theorem charToByte_cases (c : Nat) :
    (c = 43 → charToByte c = .ok 62) ∧
    (c = 47 → charToByte c = .ok 63) ∧
    (48 ≤ c ∧ c ≤ 57 → charToByte c = .ok (52 + (c - 48))) ∧
    (65 ≤ c ∧ c ≤ 90 → charToByte c = .ok (c - 65)) ∧
    (97 ≤ c ∧ c ≤ 122 → charToByte c = .ok (26 + (c - 97))) ∧
    (¬ (c = 43 ∨ c = 47 ∨ (48 ≤ c ∧ c ≤ 57) ∨ (65 ≤ c ∧ c ≤ 90) ∨ (97 ≤ c ∧ c ≤ 122)) →
      charToByte c = .error Error.InvalidCharacter) := by
  have e1 : ('+'.toNat : Nat) = 43 := by decide
  have e2 : ('/'.toNat : Nat) = 47 := by decide
  have e3 : ('0'.toNat : Nat) = 48 := by decide
  have e4 : ('A'.toNat : Nat) = 65 := by decide
  have e5 : ('a'.toNat : Nat) = 97 := by decide
  have hd := isdigit_iff c
  have hu := isupper_iff c
  have ha := isalpha_iff c
  unfold charToByte
  rw [e1, e2, e3, e4, e5]
  refine ⟨?_, ?_, ?_, ?_, ?_, ?_⟩
  · intro h
    rw [if_pos h]
  · intro h
    rw [if_neg (by omega), if_pos h]
  · intro h
    rw [if_neg (by omega), if_neg (by omega), if_pos (hd.mpr h)]
    congr 1
    omega
  · intro h
    rw [if_neg (by omega), if_neg (by omega), if_neg (fun x => by have := hd.mp x; omega),
      if_pos (ha.mpr (Or.inl h)), if_pos (hu.mpr h)]
    congr 1
    omega
  · intro h
    rw [if_neg (by omega), if_neg (by omega), if_neg (fun x => by have := hd.mp x; omega),
      if_pos (ha.mpr (Or.inr h)), if_neg (fun x => by have := hu.mp x; omega)]
    congr 1
    omega
  · intro h
    rw [if_neg (by omega), if_neg (by omega), if_neg (fun x => by have := hd.mp x; omega),
      if_neg (fun x => by have := ha.mp x; omega)]

theorem mem_byteToChar_iff (c : Nat) :
    c ∈ _byteToChar ↔
      (c = 43 ∨ c = 47 ∨ (48 ≤ c ∧ c ≤ 57) ∨ (65 ≤ c ∧ c ≤ 90) ∨ (97 ≤ c ∧ c ≤ 122)) := by
  constructor
  · intro h
    have : ∀ x ∈ _byteToChar,
        (x = 43 ∨ x = 47 ∨ (48 ≤ x ∧ x ≤ 57) ∨ (65 ≤ x ∧ x ≤ 90) ∨ (97 ≤ x ∧ x ≤ 122)) := by
      decide
    exact this c h
  · intro h
    have hall : ∀ x < 123,
        (x = 43 ∨ x = 47 ∨ (48 ≤ x ∧ x ≤ 57) ∨ (65 ≤ x ∧ x ≤ 90) ∨ (97 ≤ x ∧ x ≤ 122)) →
          x ∈ _byteToChar := by
      decide!
    exact hall c (by omega) h


/-! ## The file `encodeFile` writes -/

theorem fill_apply {α : Type} (b : Buffer α) (l : List α) (d : α) (i : Nat) (hi : i < l.length) :
    b.fill l i = l.getD i d := by
  unfold Buffer.fill
  rw [List.getD_eq_getElem _ _ hi, List.getD_eq_getElem _ _ hi]

theorem encodedLines_append (newline : List Nat) (a b : List (List byte)) :
    encodedLines newline (a ++ b) = encodedLines newline a ++ encodedLines newline b := by
  induction a with
  | nil => rfl
  | cons l a ih => simp [encodedLines, ih]

/-- The loop of `encodeFile` on chunks of `c` bytes writes one encoded line per chunk, when
the cell after the encoded chunk holds NUL; it leaves the cells from there on alone. -/
theorem encodeFileLoop_spec (newline : List Nat) (c size : Nat)
    (hc : getEncodedSize c ≤ size) (h32 : c / 3 < 2 ^ 32) (n : Nat) :
    ∀ (fin : List byte) (inBuffer : Buffer byte) (outBuffer : Buffer Nat) (fout : List Nat),
      n * c ≤ fin.length → outBuffer (getEncodedSize c) = 0 →
      ∃ ib ob, encodeFileLoop newline c size n fin inBuffer outBuffer fout =
          (fin.drop (n * c), ib, ob, fout ++ encodedLines newline (chunksLoop c n fin)) ∧
        ∀ j, getEncodedSize c ≤ j → ob j = outBuffer j := by
  induction n with
  | zero =>
    intro fin inBuffer outBuffer fout _ _
    exact ⟨inBuffer, outBuffer, by simp [encodeFileLoop, chunksLoop, encodedLines],
      fun _ _ => rfl⟩
  | succ n ih =>
    intro fin inBuffer outBuffer fout hlen h0
    have hl : (fin.take c).length = c := by
      rw [List.length_take]
      have : (n + 1) * c = n * c + c := by ring
      omega
    have hline : cString (encodeBuffer (inBuffer.fill (fin.take c)) outBuffer c).1 (size + 1) =
        encList (fin.take c) := by
      have := cString_encodeBuffer (inBuffer.fill (fin.take c)) outBuffer (fin.take c) (size + 1)
        (fun i hi => fill_apply _ _ _ i hi) (by rw [hl]; omega) (by rw [hl]; exact h0)
      rw [hl] at this
      exact this
    have hframe : ∀ j, getEncodedSize c ≤ j →
        (encodeBuffer (inBuffer.fill (fin.take c)) outBuffer c).1 j = outBuffer j := by
      intro j hj
      rw [encodeBuffer_apply, if_neg (by omega)]
    have hlen' : n * c ≤ (fin.drop c).length := by
      rw [List.length_drop]
      have : (n + 1) * c = n * c + c := by ring
      omega
    obtain ⟨ib, ob, e, hob⟩ := ih (fin.drop c) (inBuffer.fill (fin.take c))
      (encodeBuffer (inBuffer.fill (fin.take c)) outBuffer c).1
      (fout ++ cString (encodeBuffer (inBuffer.fill (fin.take c)) outBuffer c).1 (size + 1) ++
        newline) hlen' (by rw [hframe _ (Nat.le_refl _)]; exact h0)
    refine ⟨ib, ob, ?_, fun j hj => by rw [hob j hj, hframe j hj]⟩
    rw [encodeFileLoop, encodeBuffer32_fst _ _ _ h32, e, hline, List.drop_drop]
    have e2 : c + n * c = (n + 1) * c := by ring
    rw [e2]
    simp [chunksLoop, encodedLines, List.append_assoc]

/-- The file `encodeFile` writes: one encoded line per chunk of `(lineSize * 3) % 2 ^ 32 / 4`
bytes, the chunk size in `uint` arithmetic, when the number of chunks fits 32 bits.  When
the chunk size has wrapped, the lines are shorter than the array `outBuffer`, and what is
written depends on what the array holds after them: a NUL is assumed there. -/
theorem encodeFile_eq_chunks (inFile : List byte) (newline : List Nat) (lineSize : Nat)
    (inBuffer0 : Buffer byte) (outBuffer0 : Buffer Nat) (h4 : lineSize % 4 = 0)
    (hne : inFile ≠ []) (hc0 : (lineSize * 3) % 2 ^ 32 / 4 ≠ 0)
    (hn32 : inFile.length / ((lineSize * 3) % 2 ^ 32 / 4) < 2 ^ 32)
    (hmem : getEncodedSize ((lineSize * 3) % 2 ^ 32 / 4) = lineSize ∨
      outBuffer0 (getEncodedSize ((lineSize * 3) % 2 ^ 32 / 4)) = 0) :
    encodeFile inFile newline lineSize inBuffer0 outBuffer0 =
      .ok (encodedLines newline (chunks ((lineSize * 3) % 2 ^ 32 / 4) inFile)) := by
  have hlen : inFile.length ≠ 0 := by
    intro h
    exact hne (List.length_eq_zero.mp h)
  have hcle : (lineSize * 3) % 2 ^ 32 / 4 ≤ lineSize * 3 / 4 :=
    Nat.div_le_div_right (Nat.mod_le _ _)
  have hclt : (lineSize * 3) % 2 ^ 32 / 4 < 2 ^ 32 :=
    Nat.lt_of_le_of_lt (Nat.div_le_self _ _) (Nat.mod_lt _ (by norm_num))
  unfold encodeFile
  rw [if_neg (by simpa using h4)]
  simp only []
  rw [if_neg hlen]
  generalize (lineSize * 3) % 2 ^ 32 / 4 = c at hc0 hn32 hmem hcle hclt ⊢
  have hc : getEncodedSize c ≤ lineSize := by
    rw [getEncodedSize_eq]; omega
  have hlt : inFile.length % c < c := Nat.mod_lt _ (by omega)
  have e2 : (inFile.length / c) % 2 ^ 32 = inFile.length / c := Nat.mod_eq_of_lt hn32
  have e3 : (inFile.length % c) % 2 ^ 32 = inFile.length % c :=
    Nat.mod_eq_of_lt (by omega)
  have hc32 : c / 3 < 2 ^ 32 := Nat.lt_of_le_of_lt (Nat.div_le_self _ _) hclt
  have hr32 : inFile.length % c / 3 < 2 ^ 32 :=
    Nat.lt_of_le_of_lt (Nat.div_le_self _ _) (by omega)
  have hinit : (outBuffer0.store lineSize 0) (getEncodedSize c) = 0 := by
    rw [store_apply]
    split_ifs with hh
    · rfl
    · rcases hmem with h | h
      · exact absurd h hh
      · exact h
  obtain ⟨ib, ob, e, hob⟩ := encodeFileLoop_spec newline c lineSize hc hc32
    (inFile.length / c) inFile inBuffer0 (outBuffer0.store lineSize 0) []
    (Nat.div_mul_le_self _ _) hinit
  have hterm : ob lineSize = 0 := by
    rw [hob lineSize hc, store_apply, if_pos rfl]
  rw [e2, e3, if_neg hc0, e]
  simp only [List.nil_append]
  unfold chunks
  by_cases hr : inFile.length % c ≠ 0
  · rw [if_pos hr, if_pos hr, encodedLines_append, encodeBuffer32_fst _ _ _ hr32]
    simp only [encodedLines, List.append_nil]
    have hdl : (List.drop (inFile.length / c * c) inFile).length = inFile.length % c := by
      rw [List.length_drop]
      have := Nat.div_add_mod inFile.length c
      rw [Nat.mul_comm] at this
      omega
    have htake : List.take (inFile.length % c) (List.drop (inFile.length / c * c) inFile) =
        List.drop (inFile.length / c * c) inFile :=
      List.take_of_length_le (by omega)
    rw [htake]
    have hsz : getEncodedSize (inFile.length % c) ≤ lineSize := by
      rw [getEncodedSize_eq] at hc ⊢; omega
    have := cString_encodeBuffer
      ((memset ib (toByte 0) c).fill (List.drop (inFile.length / c * c) inFile))
      (memset ob 0 lineSize) (List.drop (inFile.length / c * c) inFile)
      (lineSize + 1) (fun i hi => fill_apply _ _ _ i hi) (by rw [hdl]; omega)
      (by
        rw [hdl]
        unfold memset
        split_ifs with hh
        · rfl
        · have : getEncodedSize (inFile.length % c) = lineSize := by omega
          rw [this]; exact hterm)
    rw [hdl] at this
    rw [this, List.append_assoc]
  · rw [if_neg hr, if_neg hr, List.append_nil]

/-- The file `encodeFile` writes when the product `lineSize * 3` and the number of chunks
fit 32 bits: one encoded line per chunk of `lineSize * 3 / 4` bytes. -/
theorem encodeFile_eq (inFile : List byte) (newline : List Nat) (lineSize : Nat)
    (inBuffer0 : Buffer byte) (outBuffer0 : Buffer Nat) (h4 : lineSize % 4 = 0)
    (hpos : 0 < lineSize) (hne : inFile ≠ []) (h32 : lineSize * 3 < 2 ^ 32)
    (hn32 : inFile.length / (lineSize * 3 / 4) < 2 ^ 32) :
    encodeFile inFile newline lineSize inBuffer0 outBuffer0 =
      .ok (encodedLines newline (chunks (lineSize * 3 / 4) inFile)) := by
  have e1 : (lineSize * 3) % 2 ^ 32 = lineSize * 3 := Nat.mod_eq_of_lt h32
  have := encodeFile_eq_chunks inFile newline lineSize inBuffer0 outBuffer0 h4 hne
    (by rw [e1]; omega) (by rw [e1]; exact hn32)
    (Or.inl (by rw [e1, getEncodedSize_eq]; omega))
  rw [e1] at this
  exact this

/-- With line size 4 and a file of `3 * 2 ^ 32` bytes, `uint nChunks` is 0 and nothing is left
over: `encodeFile` writes nothing. -/
theorem encodeFile_of_wrapped_count (inFile : List byte) (inBuffer0 : Buffer byte)
    (outBuffer0 : Buffer Nat) (h : inFile.length = 3 * 2 ^ 32) :
    encodeFile inFile ['\n'.toNat] 4 inBuffer0 outBuffer0 = .ok [] := by
  unfold encodeFile
  rw [h]
  rfl


/-! ## Reading an encoded file back -/

theorem getline_nil : getline [] = ([], [], true) := rfl

/-- Reading a line that ends in `'\n'`. -/
theorem getline_line (line rest : List Nat) (h : ∀ c ∈ line, c ≠ 10) :
    getline (line ++ 10 :: rest) = (line, rest, false) := by
  have e : ('\n'.toNat : Nat) = 10 := by decide
  have htw : List.takeWhile (fun c => c != 10) (line ++ 10 :: rest) = line := by
    rw [List.takeWhile_append_of_pos (by simpa using h), List.takeWhile_cons_of_neg (by simp),
      List.append_nil]
  unfold getline
  rw [e]
  simp only [htw]
  rw [if_pos (by simp)]
  simp

theorem encList_ne_nil (l : List byte) (h : l ≠ []) : 4 ≤ (encList l).length := by
  rw [encList_length, getEncodedSize_eq]
  have : 0 < l.length := List.length_pos.mpr h
  omega

/-- Decoding a line of an encoded file gives back the chunk behind it. -/
theorem decodeBuffer_encList (l : List byte) (out : Buffer byte) (h3 : l.length % 3 ≠ 1) :
    ∃ ob, decodeBuffer (Buffer.ofList (encList l) 0) out (encList l).length =
        (ob, .ok l.length) ∧ ob.read 0 l.length = l := by
  obtain ⟨d1, d2⟩ := decodeBuffer_encodeBuffer (Buffer.ofList l (toByte 0)) (fun _ => 0) out
    l.length
  rw [encodeBuffer_length, ← ofList_encList, ← encList_length, if_neg h3] at d1
  rw [encodeBuffer_length, ← ofList_encList, ← encList_length] at d2
  refine ⟨(decodeBuffer (Buffer.ofList (encList l) 0) out (encList l).length).1, ?_, ?_⟩
  · rw [← d1]
  · apply List.ext_getElem
    · rw [read_length]
    · intro i h1 h2
      rw [read_getElem, Nat.zero_add, d2 i, if_pos h2]
      unfold Buffer.ofList
      rw [List.getD_eq_getElem _ _ h2]

/-- One round of the loop of `decodeFile`, after the line has been read. -/
theorem decodeFileLoop_step (uninit : Buffer byte) (fuel : Nat) (stream line rest : List Nat)
    (eof : Bool) (lineCount outBufferSize capacity : Nat) (outBuffer : Buffer byte)
    (fout : List byte) (hg : getline stream = (line, rest, eof)) :
    decodeFileLoop uninit (fuel + 1) stream lineCount outBufferSize capacity outBuffer fout =
      if (stripCR line).length % 2 ^ 32 = 0 then
        if eof then some (fout, .ok ())
        else decodeFileLoop uninit fuel rest (lineCount + 1) outBufferSize capacity outBuffer
          fout
      else if (stripCR line).length % 2 ^ 32 % 4 ≠ 0 then
        some (fout, .error (Error.DoubleDelete (lineCount + 1)))
      else
        match decodeBuffer32 ((stripCR line).length % 2 ^ 32 + 1)
          (Buffer.ofList (stripCR line) 0)
          (if ((stripCR line).length % 2 ^ 32 * 3) % 2 ^ 32 / 4 > outBufferSize then uninit
            else outBuffer)
          ((stripCR line).length % 2 ^ 32) with
        | none => none
        | some (_, .error e) => some (fout, .error e)
        | some (ob, .ok decodedLength) =>
          if decodedLength >
              (if ((stripCR line).length % 2 ^ 32 * 3) % 2 ^ 32 / 4 > outBufferSize then
                ((stripCR line).length % 2 ^ 32 * 3) % 2 ^ 32 / 4 else capacity) then
            some (fout, .error Error.BufferOverflow)
          else if eof then some (fout ++ ob.read 0 decodedLength, .ok ())
          else decodeFileLoop uninit fuel rest (lineCount + 1)
            (((stripCR line).length % 2 ^ 32 * 3) % 2 ^ 32 / 4)
            (if ((stripCR line).length % 2 ^ 32 * 3) % 2 ^ 32 / 4 > outBufferSize then
              ((stripCR line).length % 2 ^ 32 * 3) % 2 ^ 32 / 4 else capacity)
            ob (fout ++ ob.read 0 decodedLength) := by
  rw [decodeFileLoop, hg]

/-- One round of the loop of `decodeFile` on a line short enough for `lineSize * 3` to fit
32 bits, with an array no smaller than `outBufferSize`: no counter wraps, and `decodeBuffer`
stays inside the array. -/
theorem decodeFileLoop_step_small (uninit : Buffer byte) (fuel : Nat)
    (stream line rest : List Nat) (eof : Bool) (lineCount outBufferSize capacity : Nat)
    (outBuffer : Buffer byte) (fout : List byte) (hg : getline stream = (line, rest, eof))
    (hs : (stripCR line).length * 3 < 2 ^ 32) (hcap : outBufferSize ≤ capacity) :
    decodeFileLoop uninit (fuel + 1) stream lineCount outBufferSize capacity outBuffer fout =
      if (stripCR line).length = 0 then
        if eof then some (fout, .ok ())
        else decodeFileLoop uninit fuel rest (lineCount + 1) outBufferSize capacity outBuffer
          fout
      else if (stripCR line).length % 4 ≠ 0 then
        some (fout, .error (Error.DoubleDelete (lineCount + 1)))
      else
        match decodeBuffer (Buffer.ofList (stripCR line) 0)
          (if (stripCR line).length * 3 / 4 > outBufferSize then uninit else outBuffer)
          (stripCR line).length with
        | (_, .error e) => some (fout, .error e)
        | (ob, .ok decodedLength) =>
          if eof then some (fout ++ ob.read 0 decodedLength, .ok ())
          else decodeFileLoop uninit fuel rest (lineCount + 1) ((stripCR line).length * 3 / 4)
            (if (stripCR line).length * 3 / 4 > outBufferSize then
              (stripCR line).length * 3 / 4 else capacity)
            ob (fout ++ ob.read 0 decodedLength) := by
  have hlt : (stripCR line).length < 2 ^ 32 := by omega
  have e1 : (stripCR line).length % 2 ^ 32 = (stripCR line).length := Nat.mod_eq_of_lt hlt
  have e2 : ((stripCR line).length * 3) % 2 ^ 32 = (stripCR line).length * 3 :=
    Nat.mod_eq_of_lt hs
  rw [decodeFileLoop_step uninit fuel stream line rest eof _ _ _ _ _ hg, e1, e2]
  by_cases h0 : (stripCR line).length = 0
  · rw [if_pos h0, if_pos h0]
  · rw [if_neg h0, if_neg h0]
    by_cases h4 : (stripCR line).length % 4 ≠ 0
    · rw [if_pos h4, if_pos h4]
    · rw [if_neg h4, if_neg h4, decodeBuffer32_eq _ _ _ _ hlt (Nat.lt_succ_self _)]
      rcases hd : decodeBuffer (Buffer.ofList (stripCR line) 0)
        (if (stripCR line).length * 3 / 4 > outBufferSize then uninit else outBuffer)
        (stripCR line).length with ⟨ob, r⟩
      cases r with
      | error e => rfl
      | ok n =>
        have hb := (decodeBuffer_ok_bound _ _ _ n (by rw [hd])).1
        unfold getDecodedSize at hb
        have hng : ¬ (n > (if (stripCR line).length * 3 / 4 > outBufferSize then
            (stripCR line).length * 3 / 4 else capacity)) := by
          split_ifs <;> omega
        simp only []
        rw [if_neg hng]

theorem stripCR_of_last (line : List Nat) (h : line.getD (line.length - 1) 0 ≠ 13) :
    stripCR line = line := by
  have er : ('\r'.toNat : Nat) = 13 := by decide
  unfold stripCR
  rw [er, if_neg (fun hc => h hc.2)]

theorem stripCR_append (line : List Nat) : stripCR (line ++ [13]) = line := by
  have er : ('\r'.toNat : Nat) = 13 := by decide
  unfold stripCR
  rw [er, if_pos ⟨by simp, by simp [List.getD_eq_getElem?_getD]⟩]
  simp

/-- One round of the loop of `decodeFile` on an encoded line. -/
theorem decodeFileLoop_line (uninit : Buffer byte) (newline : List Nat)
    (hnl : newline = ['\n'.toNat] ∨ newline = ['\r'.toNat, '\n'.toNat])
    (l : List byte) (hl : l ≠ []) (h3 : l.length % 3 ≠ 1)
    (hs : (encList l).length * 3 < 2 ^ 32) (fuel : Nat) (rest : List Nat)
    (lineCount outBufferSize capacity : Nat) (hcap : outBufferSize ≤ capacity)
    (outBuffer : Buffer byte) (fout : List byte) :
    ∃ ob cap, (encList l).length * 3 / 4 ≤ cap ∧
      decodeFileLoop uninit (fuel + 1) (encList l ++ newline ++ rest) lineCount
        outBufferSize capacity outBuffer fout =
      decodeFileLoop uninit fuel rest (lineCount + 1) ((encList l).length * 3 / 4) cap ob
        (fout ++ l) := by
  have en : ('\n'.toNat : Nat) = 10 := by decide
  have er : ('\r'.toNat : Nat) = 13 := by decide
  rw [en, er] at hnl
  have hge := encList_ge l
  have hlen := encList_ne_nil l hl
  have hmod : (encList l).length % 4 = 0 := by
    rw [encList_length, getEncodedSize_eq]; omega
  have hlast : (encList l).getD ((encList l).length - 1) 0 ≠ 13 := by
    rw [List.getD_eq_getElem _ _ (by omega)]
    have := hge _ (List.getElem_mem (l := encList l) (n := (encList l).length - 1) (by omega))
    omega
  obtain ⟨ob, hdec, hread⟩ := decodeBuffer_encList l
    (if (encList l).length * 3 / 4 > outBufferSize then uninit else outBuffer) h3
  have h0 : ¬ ((encList l).length = 0) := by omega
  have h4 : ¬ ((encList l).length % 4 ≠ 0) := by simp [hmod]
  have hg : ∃ line, getline (encList l ++ newline ++ rest) = (line, rest, false) ∧
      stripCR line = encList l := by
    rcases hnl with rfl | rfl
    · refine ⟨encList l, ?_, stripCR_of_last _ hlast⟩
      rw [List.append_assoc]
      exact getline_line _ _ (fun c hc => by have := hge c hc; omega)
    · refine ⟨encList l ++ [13], ?_, stripCR_append _⟩
      have e : encList l ++ [13, 10] ++ rest = (encList l ++ [13]) ++ 10 :: rest := by simp
      rw [e]
      apply getline_line
      intro c hc
      rcases List.mem_append.mp hc with h | h
      · have := hge c h; omega
      · simp at h; omega
  obtain ⟨line, hg, hstrip⟩ := hg
  refine ⟨ob, if (encList l).length * 3 / 4 > outBufferSize then (encList l).length * 3 / 4
    else capacity, by split_ifs <;> omega, ?_⟩
  rw [decodeFileLoop_step_small uninit fuel _ line rest false _ _ _ _ _ hg
    (by rw [hstrip]; exact hs) hcap, hstrip, if_neg h0, if_neg h4, hdec]
  simp only [Bool.false_eq_true, if_false, hread]

/-- The loop of `decodeFile` on a file of encoded lines writes the chunks behind them. -/
theorem decodeFileLoop_encodedLines (uninit : Buffer byte) (newline : List Nat)
    (hnl : newline = ['\n'.toNat] ∨ newline = ['\r'.toNat, '\n'.toNat])
    (cs : List (List byte)) :
    (∀ l ∈ cs, (l ≠ [] ∧ l.length % 3 ≠ 1) ∧ (encList l).length * 3 < 2 ^ 32) →
    ∀ (fuel lineCount outBufferSize capacity : Nat) (outBuffer : Buffer byte)
      (fout : List byte), outBufferSize ≤ capacity →
      (encodedLines newline cs).length + 1 ≤ fuel →
      decodeFileLoop uninit fuel (encodedLines newline cs) lineCount outBufferSize capacity
        outBuffer fout = some (fout ++ cs.flatten, .ok ()) := by
  induction cs with
  | nil =>
    intro _ fuel lineCount outBufferSize capacity outBuffer fout _ hf
    obtain ⟨fuel, rfl⟩ : ∃ k, fuel = k + 1 := ⟨fuel - 1, by omega⟩
    rw [encodedLines, decodeFileLoop_step uninit fuel [] [] [] true _ _ _ _ _ getline_nil]
    simp [stripCR]
  | cons l cs ih =>
    intro hcs fuel lineCount outBufferSize capacity outBuffer fout hcap hf
    obtain ⟨fuel, rfl⟩ : ∃ k, fuel = k + 1 := ⟨fuel - 1, by omega⟩
    have hl := hcs l (List.mem_cons_self _ _)
    obtain ⟨ob, cap, hcap2, e⟩ := decodeFileLoop_line uninit newline hnl l hl.1.1 hl.1.2 hl.2
      fuel (encodedLines newline cs) lineCount outBufferSize capacity hcap outBuffer fout
    rw [encodedLines, e, ih (fun l' hl' => hcs l' (List.mem_cons_of_mem _ hl')) _ _ _ _ _ _
      hcap2]
    · simp
    · rw [encodedLines] at hf
      simp only [List.length_append] at hf
      have := encList_ne_nil l hl.1.1
      omega


/-! ## The loop of `decodeFile`, line by line -/

/-- Reading the last line of a stream, which no `'\n'` ends. -/
theorem getline_last (line : List Nat) (h : ∀ c ∈ line, c ≠ 10) :
    getline line = (line, [], true) := by
  have e : ('\n'.toNat : Nat) = 10 := by decide
  have htw : List.takeWhile (fun c => c != 10) line = line := by
    rw [List.takeWhile_eq_self_iff]
    simpa using h
  unfold getline
  rw [e]
  simp only [htw]
  rw [if_neg (by omega)]

theorem linesOf_cons (l : List Nat) (ls : List (List Nat)) :
    linesOf (l :: ls) = l ++ 10 :: linesOf ls := by
  have e : ('\n'.toNat : Nat) = 10 := by decide
  simp [linesOf, e]

theorem linesOf_length (ls : List (List Nat)) : ls.length ≤ (linesOf ls).length := by
  induction ls with
  | nil => simp
  | cons l ls ih =>
    rw [linesOf_cons]
    simp only [List.length_append, List.length_cons]
    omega

/-- The loop of `decodeFile` on lines that are empty or valid, followed by a line whose
length is not a multiple of 4: the branch for that line, with its number, is reached, and
the array is deleted twice. -/
theorem decodeFileLoop_malformed (uninit : Buffer byte) (bad tail : List Nat)
    (hbad : ∀ c ∈ bad, c ≠ 10) (hlen : (stripCR bad).length % 4 ≠ 0)
    (htail : tail = [] ∨ ∃ t, tail = 10 :: t) (lines : List (List Nat)) :
    (∀ l ∈ lines, (∀ c ∈ l, c ≠ 10) ∧ (stripCR l).length * 3 < 2 ^ 32 ∧
      (stripCR l = [] ∨
        isValidEncoding (Buffer.ofList (stripCR l) 0) (stripCR l).length = true)) →
    ∀ (fuel lineCount outBufferSize capacity : Nat) (outBuffer : Buffer byte)
      (fout : List byte), outBufferSize ≤ capacity → lines.length + 1 ≤ fuel →
      ∃ written, decodeFileLoop uninit fuel (linesOf lines ++ bad ++ tail) lineCount
          outBufferSize capacity outBuffer fout =
        some (written, .error (Error.DoubleDelete (lineCount + lines.length + 1))) := by
  induction lines with
  | nil =>
    intro _ fuel lineCount outBufferSize capacity outBuffer fout _ hf
    obtain ⟨fuel, rfl⟩ : ∃ k, fuel = k + 1 := ⟨fuel - 1, by omega⟩
    have hg : ∃ rest eof, getline (linesOf [] ++ bad ++ tail) = (bad, rest, eof) := by
      rcases htail with rfl | ⟨t, rfl⟩
      · exact ⟨[], true, by simpa [linesOf] using getline_last bad hbad⟩
      · exact ⟨t, false, by simpa [linesOf] using getline_line bad t hbad⟩
    obtain ⟨rest, eof, hg⟩ := hg
    refine ⟨fout, ?_⟩
    have c0 : ¬ ((stripCR bad).length % 2 ^ 32 = 0) := by
      rw [two_pow_32]; omega
    have c4 : (stripCR bad).length % 2 ^ 32 % 4 ≠ 0 := by
      rw [two_pow_32]; omega
    rw [decodeFileLoop_step uninit fuel _ bad rest eof _ _ _ _ _ hg, if_neg c0, if_pos c4]
    rfl
  | cons l ls ih =>
    intro hls fuel lineCount outBufferSize capacity outBuffer fout hcap hf
    obtain ⟨fuel, rfl⟩ : ∃ k, fuel = k + 1 := ⟨fuel - 1, by omega⟩
    obtain ⟨hl10, hsmall, hl⟩ := hls l (List.mem_cons_self _ _)
    have hls' : ∀ l' ∈ ls, (∀ c ∈ l', c ≠ 10) ∧ (stripCR l').length * 3 < 2 ^ 32 ∧
        (stripCR l' = [] ∨
          isValidEncoding (Buffer.ofList (stripCR l') 0) (stripCR l').length = true) :=
      fun l' h' => hls l' (List.mem_cons_of_mem _ h')
    have hf' : ls.length + 1 ≤ fuel := by
      simp only [List.length_cons] at hf
      omega
    have hg : getline (linesOf (l :: ls) ++ bad ++ tail) =
        (l, linesOf ls ++ bad ++ tail, false) := by
      rw [linesOf_cons]
      have e : l ++ 10 :: linesOf ls ++ bad ++ tail = l ++ 10 :: (linesOf ls ++ bad ++ tail) := by
        simp
      rw [e]
      exact getline_line l _ hl10
    have hcount : lineCount + (l :: ls).length + 1 = lineCount + 1 + ls.length + 1 := by
      simp only [List.length_cons]
      omega
    rw [decodeFileLoop_step_small uninit fuel _ l _ false _ _ _ _ _ hg hsmall hcap, hcount]
    by_cases h0 : (stripCR l).length = 0
    · rw [if_pos h0]
      simp only [Bool.false_eq_true, if_false]
      exact ih hls' fuel (lineCount + 1) outBufferSize capacity outBuffer fout hcap hf'
    · have hv : isValidEncoding (Buffer.ofList (stripCR l) 0) (stripCR l).length = true := by
        rcases hl with h | h
        · rw [h] at h0
          exact absurd rfl h0
        · exact h
      have h4 : ¬ ((stripCR l).length % 4 ≠ 0) := by
        have := ((isValidEncoding_iff _ _).mp hv).1
        omega
      rw [if_neg h0, if_neg h4]
      have hd := (decodeBuffer_of_valid (Buffer.ofList (stripCR l) 0)
        (if (stripCR l).length * 3 / 4 > outBufferSize then uninit else outBuffer)
        (stripCR l).length hv).1
      rcases hdb : decodeBuffer (Buffer.ofList (stripCR l) 0)
        (if (stripCR l).length * 3 / 4 > outBufferSize then uninit else outBuffer)
        (stripCR l).length with ⟨ob, r⟩
      rw [hdb] at hd
      simp only at hd
      subst hd
      simp only [Bool.false_eq_true, if_false]
      exact ih hls' fuel (lineCount + 1) _ _ ob _ (by split_ifs <;> omega) hf'


/-! ## The length `decodeBlock` returns -/

/-- C1 (round trip, evaluated where it breaks): on the four bytes of "Ruby", `encodeBuffer`
writes "UnVieQ==" and returns 8; `decodeBuffer` on these eight characters succeeds but returns
length 5, not 4: it writes the bytes of "Ruby" and then a byte 0 that it counts as decoded. -/
theorem C1_round_trip_length_off_by_one :
    (encodeBuffer (bytes "Ruby") (fun _ => 0) 4).2 = 8 ∧
    (encodeBuffer (bytes "Ruby") (fun _ => 0) 4).1.read 0 8 = codes "UnVieQ==" ∧
    (decodeBuffer (encodeBuffer (bytes "Ruby") (fun _ => 0) 4).1 (fun _ => toByte 255)
      (encodeBuffer (bytes "Ruby") (fun _ => 0) 4).2).2 = .ok 5 ∧
    (decodeBuffer (encodeBuffer (bytes "Ruby") (fun _ => 0) 4).1 (fun _ => toByte 255)
      (encodeBuffer (bytes "Ruby") (fun _ => 0) 4).2).1.read 0 6 =
      [toByte 82, toByte 117, toByte 98, toByte 121, toByte 0, toByte 255] := by
  decide


/-- C2: for every byte buffer, `isValidEncoding` returns true on the characters that
`encodeBuffer` wrote, taken with the length `encodeBuffer` returned. -/
theorem C2_encodeBuffer_output_is_valid (inp : Buffer byte) (out : Buffer Nat) (inSize : Nat) :
    isValidEncoding (encodeBuffer inp out inSize).1 (encodeBuffer inp out inSize).2 = true :=
  encodeBuffer_valid inp out inSize


/-- C5 (error kinds of `decodeBuffer`): the call fails with `MalformedLength` exactly when
the length is not a multiple of 4, whatever the characters are, and fails with
`InvalidEncoding` exactly when the length is a multiple of 4 and `isValidEncoding` returns
false on the buffer. -/
theorem C5_decodeBuffer_error_kinds (inp : Buffer Nat) (out : Buffer byte) (inSize : Nat) :
    ((decodeBuffer inp out inSize).2 = .error Error.MalformedLength ↔ inSize % 4 ≠ 0) ∧
    ((decodeBuffer inp out inSize).2 = .error Error.InvalidEncoding ↔
      (inSize % 4 = 0 ∧ isValidEncoding inp inSize = false)) := by
  by_cases h4 : inSize % 4 = 0
  · by_cases hv : isValidEncoding inp inSize = true
    · have := (decodeBuffer_of_valid inp out inSize hv).1
      rw [this]
      simp [h4, hv]
    · have hv2 : isValidEncoding inp inSize = false := by simpa using hv
      have e : decodeBuffer inp out inSize = (out, .error Error.InvalidEncoding) := by
        unfold decodeBuffer
        rw [if_neg (by simpa using h4), if_pos (by simp [hv2])]
      rw [e]
      simp [h4, hv2]
  · have e : decodeBuffer inp out inSize = (out, .error Error.MalformedLength) := by
      unfold decodeBuffer
      rw [if_pos h4]
    rw [e]
    simp [h4]


/-- C6 (decoded length, evaluated where it breaks): the validator accepts "ab==", whose
final block ends in two padding characters, and `decodeBuffer` returns length 2 on it,
not `(4 / 4) * 3 - 2 = 1`; on "abc=" it returns 2 and on "abcd" it returns 3. -/
theorem C6_decoded_length_two_paddings :
    isValidEncoding (cstr "ab==") 4 = true ∧
    (decodeBuffer (cstr "ab==") (fun _ => toByte 0) 4).2 = .ok 2 ∧
    getDecodedSize 4 - 2 = 1 ∧
    (decodeBuffer (cstr "abc=") (fun _ => toByte 0) 4).2 = .ok 2 ∧
    (decodeBuffer (cstr "abcd") (fun _ => toByte 0) 4).2 = .ok 3 := by
  decide


/-- C7 (known encode vectors): `encodeBuffer` maps "basic viability test" to
"YmFzaWMgdmlhYmlsaXR5IHRlc3Q=" and each decoded text of the test table `g_cases` to the
encoded string listed with it, the length returned being the length of that string. -/
theorem C7_known_encode_vectors :
    ((encodeBuffer (bytes "basic viability test") (fun _ => 0) 20).2 = 28 ∧
      (encodeBuffer (bytes "basic viability test") (fun _ => 0) 20).1.read 0 28 =
        codes "YmFzaWMgdmlhYmlsaXR5IHRlc3Q=") ∧
    ((encodeBuffer (bytes "Send reinforcements") (fun _ => 0) 19).2 = 28 ∧
      (encodeBuffer (bytes "Send reinforcements") (fun _ => 0) 19).1.read 0 28 =
        codes "U2VuZCByZWluZm9yY2VtZW50cw==") ∧
    ((encodeBuffer (bytes "Now is the time for all good coders\nto learn ") (fun _ => 0) 45).2
        = 60 ∧
      (encodeBuffer (bytes "Now is the time for all good coders\nto learn ")
        (fun _ => 0) 45).1.read 0 60 =
        codes "Tm93IGlzIHRoZSB0aW1lIGZvciBhbGwgZ29vZCBjb2RlcnMKdG8gbGVhcm4g") ∧
    ((encodeBuffer (bytes "Ruby") (fun _ => 0) 4).2 = 8 ∧
      (encodeBuffer (bytes "Ruby") (fun _ => 0) 4).1.read 0 8 = codes "UnVieQ==") ∧
    ((encodeBuffer (bytes
        "This is line one\nThis is line two\nThis is line three\nAnd so on...\n")
        (fun _ => 0) 66).2 = 88 ∧
      (encodeBuffer (bytes
        "This is line one\nThis is line two\nThis is line three\nAnd so on...\n")
        (fun _ => 0) 66).1.read 0 88 = codes
        "VGhpcyBpcyBsaW5lIG9uZQpUaGlzIGlzIGxpbmUgdHdvClRoaXMgaXMgbGluZSB0aHJlZQpBbmQgc28gb24uLi4K") ∧
    ((encodeBuffer (bytes "") (fun _ => 0) 0).2 = 0 ∧
      (encodeBuffer (bytes "") (fun _ => 0) 0).1.read 0 0 = codes "") ∧
    ("basic viability test".length = 20 ∧ "Send reinforcements".length = 19 ∧
      "Now is the time for all good coders\nto learn ".length = 45 ∧ "Ruby".length = 4 ∧
      "This is line one\nThis is line two\nThis is line three\nAnd so on...\n".length = 66) := by
  decide!


/-- C8 (known decode vectors, evaluated where they break): `decodeBuffer` on "UnVieQ=="
returns length 5, not 4, writing the bytes of "Ruby" and a byte 0, and on
"U2VuZCByZWluZm9yY2VtZW50cw==" returns length 20, not 19; on "YmFzaWMgdmlhYmlsaXR5IHRlc3Q="
it returns 20 with the bytes of "basic viability test", and on the empty buffer 0. -/
theorem C8_known_decode_vectors_length :
    ((decodeBuffer (cstr "UnVieQ==") (fun _ => toByte 255) 8).2 = .ok 5 ∧
      (decodeBuffer (cstr "UnVieQ==") (fun _ => toByte 255) 8).1.read 0 5 =
        (bytes "Ruby").read 0 4 ++ [toByte 0]) ∧
    ((decodeBuffer (cstr "U2VuZCByZWluZm9yY2VtZW50cw==") (fun _ => toByte 255) 28).2 = .ok 20 ∧
      (decodeBuffer (cstr "U2VuZCByZWluZm9yY2VtZW50cw==") (fun _ => toByte 255) 28).1.read 0 20 =
        (bytes "Send reinforcements").read 0 19 ++ [toByte 0]) ∧
    ((decodeBuffer (cstr "YmFzaWMgdmlhYmlsaXR5IHRlc3Q=") (fun _ => toByte 255) 28).2 = .ok 20 ∧
      (decodeBuffer (cstr "YmFzaWMgdmlhYmlsaXR5IHRlc3Q=") (fun _ => toByte 255) 28).1.read 0 20 =
        (bytes "basic viability test").read 0 20) ∧
    (decodeBuffer (cstr "") (fun _ => toByte 255) 0).2 = .ok 0 := by
  decide!


/-- C10, as stated, fails, in three ways.  (1) With the newline sequence "\r" (a carriage
return alone), line size 4 and the six bytes of "ManMan", `encodeFile` writes
"TWFu\rTWFu\r", which `decodeFile` reads as the single line "TWFu\rTWFu" of 9 characters:
it writes nothing and ends in the branch for a line whose length is not a multiple
of 4.  (2) With the line size 1431655768, a multiple of 4 that fits 32 bits, the `uint`
product `lineSize * 3` wraps and the chunk size is 2, not 1073741826: for the five bytes of
"ManMa" and the newline "\n" (the array `outBuffer` holding NUL where `new[]` left it),
`encodeFile` writes the lines "TWE=", "bk0=" and "YQ==", and `decodeFile` writes six bytes,
"ManMa" and a byte 0.  (3) With line size 4 and a file of `3 * 2 ^ 32` bytes, the number of
chunks, `2 ^ 32`, wraps to 0 in `uint nChunks`: `encodeFile` writes an empty file, which
`decodeFile` rejects. -/
theorem C10_file_round_trip_fails :
    (4 % 4 = 0 ∧ (codes "ManMan").map toByte ≠ [] ∧
      encodeFile ((codes "ManMan").map toByte) ['\r'.toNat] 4 (fun _ => toByte 0) (fun _ => 0) =
        .ok (codes "TWFu\rTWFu\r") ∧
      decodeFile (codes "TWFu\rTWFu\r") (fun _ => toByte 0) =
        some ([], .error (Error.DoubleDelete 1))) ∧
    (1431655768 % 4 = 0 ∧ 1431655768 < 2 ^ 32 ∧ (1431655768 * 3) % 2 ^ 32 / 4 = 2 ∧
      ((codes "ManMa").map toByte).length % (1431655768 * 3 / 4) % 3 ≠ 1 ∧
      encodeFile ((codes "ManMa").map toByte) ['\n'.toNat] 1431655768 (fun _ => toByte 0)
        (fun _ => 0) = .ok (codes "TWE=\nbk0=\nYQ==\n") ∧
      decodeFile (codes "TWE=\nbk0=\nYQ==\n") (fun _ => toByte 0) =
        some ((codes "ManMa").map toByte ++ [toByte 0], .ok ())) ∧
    ((List.replicate (3 * 2 ^ 32) (toByte 0)).length < 2 ^ 64 ∧
      encodeFile (List.replicate (3 * 2 ^ 32) (toByte 0)) ['\n'.toNat] 4 (fun _ => toByte 0)
        (fun _ => 0) = .ok [] ∧
      decodeFile [] (fun _ => toByte 0) = some ([], .error Error.EmptyInput)) := by
  refine ⟨by decide, ⟨by decide, by decide, by decide, by decide, ?_, by decide⟩,
    ⟨?_, ?_, by decide⟩⟩
  · rw [encodeFile_eq_chunks ((codes "ManMa").map toByte) ['\n'.toNat] 1431655768
      (fun _ => toByte 0) (fun _ => 0) (by decide) (by decide) (by decide) (by decide)
      (Or.inr rfl)]
    decide
  · rw [List.length_replicate]
    decide
  · exact encodeFile_of_wrapped_count _ _ _ (List.length_replicate _ _)

/-- C10, amended (files as byte sequences, `uint` of 32 bits): for every non-empty byte
sequence `inFile`, every positive `lineSize` that is a multiple of 4, with `lineSize * 3`
below `2 ^ 32`, and the newline sequence "\n" or "\r\n", when the file has fewer than `2 ^ 32`
chunks of `lineSize * 3 / 4` bytes and the last chunk is not left with a number of bytes
that is 1 modulo 3, `encodeFile` succeeds and `decodeFile` on the file it wrote succeeds and
writes exactly the bytes of `inFile`. -/
theorem C10_file_round_trip (inFile : List byte) (newline : List Nat) (lineSize : Nat)
    (inBuffer0 : Buffer byte) (outBuffer0 : Buffer Nat) (uninit : Buffer byte)
    (hne : inFile ≠ []) (h4 : lineSize % 4 = 0) (hpos : 0 < lineSize)
    (h32 : lineSize * 3 < 2 ^ 32)
    (hnl : newline = ['\n'.toNat] ∨ newline = ['\r'.toNat, '\n'.toNat])
    (hn32 : inFile.length / (lineSize * 3 / 4) < 2 ^ 32)
    (hlast : inFile.length % (lineSize * 3 / 4) % 3 ≠ 1) :
    ∃ encoded, encodeFile inFile newline lineSize inBuffer0 outBuffer0 = .ok encoded ∧
      decodeFile encoded uninit = some (inFile, .ok ()) := by
  refine ⟨_, encodeFile_eq inFile newline lineSize inBuffer0 outBuffer0 h4 hpos hne h32 hn32,
    ?_⟩
  have hcs := chunks_length (lineSize * 3 / 4) inFile (by omega) (by omega) hlast
  have hle := chunks_le (lineSize * 3 / 4) inFile (by omega)
  have hcs2 : ∀ l ∈ chunks (lineSize * 3 / 4) inFile,
      (l ≠ [] ∧ l.length % 3 ≠ 1) ∧ (encList l).length * 3 < 2 ^ 32 := by
    intro l hl
    refine ⟨hcs l hl, ?_⟩
    have := hle l hl
    rw [encList_length, getEncodedSize_eq]
    rw [two_pow_32] at h32 ⊢
    omega
  have hlen : (encodedLines newline (chunks (lineSize * 3 / 4) inFile)).length ≠ 0 := by
    cases hc : chunks (lineSize * 3 / 4) inFile with
    | nil =>
      have := chunks_join (lineSize * 3 / 4) inFile
      rw [hc] at this
      exact absurd this.symm hne
    | cons l cs =>
      rw [hc] at hcs
      have := encList_ne_nil l (hcs l (List.mem_cons_self _ _)).1
      rw [encodedLines]
      simp only [List.length_append]
      omega
  unfold decodeFile
  simp only []
  rw [if_neg hlen, decodeFileLoop_encodedLines uninit newline hnl _ hcs2 _ _ _ _ _ _
    (Nat.le_refl _) (Nat.le_refl _), chunks_join]
  rfl

/-- C10 amended, at the 11 bytes of "ManManRuby!" with line size 4 and newline "\r\n". -/
theorem C10_file_round_trip_witness :
    ∃ encoded, encodeFile ((codes "ManManRuby!").map toByte) ['\r'.toNat, '\n'.toNat] 4
        (fun _ => toByte 0) (fun _ => 0) = .ok encoded ∧
      decodeFile encoded (fun _ => toByte 0) = some ((codes "ManManRuby!").map toByte, .ok ()) :=
  C10_file_round_trip ((codes "ManManRuby!").map toByte) ['\r'.toNat, '\n'.toNat] 4
    (fun _ => toByte 0) (fun _ => 0) (fun _ => toByte 0) (by decide) (by decide) (by decide)
    (by decide) (by decide) (by decide) (by decide)


/-- C11 (validator truth table): `isValidEncoding` returns true on each buffer of the test's
`valid` list and false on each buffer of its `invalid` list, each taken with its `strlen`. -/
theorem C11_validator_truth_table :
    (isValidEncoding (cstr "") 0 = true ∧ isValidEncoding (cstr "abcd") 4 = true ∧
      isValidEncoding (cstr "1234") 4 = true ∧ isValidEncoding (cstr "ab==") 4 = true ∧
      isValidEncoding (cstr "abc=") 4 = true ∧ isValidEncoding (cstr "++++") 4 = true ∧
      isValidEncoding (cstr "////") 4 = true ∧ isValidEncoding (cstr "a/b+") 4 = true ∧
      isValidEncoding (cstr "+/a+") 4 = true ∧
      isValidEncoding (cstr "YmFzaWMgdmlhYmlsaXR5IHRlc3Q=") 28 = true) ∧
    (isValidEncoding (cstr "a") 1 = false ∧ isValidEncoding (cstr "ab") 2 = false ∧
      isValidEncoding (cstr "abc") 3 = false ∧ isValidEncoding (cstr "a===") 4 = false ∧
      isValidEncoding (cstr "ab=c") 4 = false ∧ isValidEncoding (cstr "abcde") 5 = false ∧
      isValidEncoding (cstr "====") 4 = false ∧ isValidEncoding (cstr "+--4") 4 = false ∧
      isValidEncoding (cstr "4++)") 4 = false ∧ isValidEncoding (cstr "a=bc") 4 = false ∧
      isValidEncoding (cstr "=") 1 = false ∧ isValidEncoding (cstr "==") 2 = false ∧
      isValidEncoding (cstr "===") 3 = false) ∧
    ("YmFzaWMgdmlhYmlsaXR5IHRlc3Q=".length = 28 ∧ "abcde".length = 5) := by
  decide


/-- C12 (`getDecodedSize` is an upper bound): when `decodeBuffer` returns, the length it
returns is at most `getDecodedSize inSize = (inSize / 4) * 3`, and it has written to no cell
of the output buffer at offset `getDecodedSize inSize` or beyond, so an output buffer of
`getDecodedSize inSize` bytes suffices. -/
theorem C12_getDecodedSize_upper_bound (inp : Buffer Nat) (out : Buffer byte)
    (inSize len : Nat) (h : (decodeBuffer inp out inSize).2 = .ok len) :
    len ≤ getDecodedSize inSize ∧ getDecodedSize inSize = (inSize / 4) * 3 ∧
    ∀ j, getDecodedSize inSize ≤ j → (decodeBuffer inp out inSize).1 j = out j :=
  ⟨(decodeBuffer_ok_bound inp out inSize len h).1, rfl,
    (decodeBuffer_ok_bound inp out inSize len h).2⟩

/-- C12 at the buffer "ab==", where `decodeBuffer` returns 2 and `getDecodedSize 4 = 3`. -/
theorem C12_getDecodedSize_upper_bound_witness :
    2 ≤ getDecodedSize 4 ∧ getDecodedSize 4 = (4 / 4) * 3 ∧
    ∀ j, getDecodedSize 4 ≤ j →
      (decodeBuffer (cstr "ab==") (fun _ => toByte 255) 4).1 j = (fun _ => toByte 255) j :=
  C12_getDecodedSize_upper_bound (cstr "ab==") (fun _ => toByte 255) 4 2 (by decide)


/-- C14 (no partial results): when `decodeBuffer` throws, whatever the error, the output
buffer is left as the caller passed it: no cell of it has been written. -/
theorem C14_decodeBuffer_failure_writes_nothing (inp : Buffer Nat) (out : Buffer byte)
    (inSize : Nat) (e : Error) (h : (decodeBuffer inp out inSize).2 = .error e) :
    (decodeBuffer inp out inSize).1 = out :=
  decodeBuffer_error_unchanged inp out inSize e h

/-- C14 at the buffers "abcde" (`MalformedLength`) and "a=bc" (`InvalidEncoding`). -/
theorem C14_decodeBuffer_failure_writes_nothing_witness :
    (decodeBuffer (cstr "abcde") (fun _ => toByte 255) 5).1 = (fun _ => toByte 255) ∧
    (decodeBuffer (cstr "a=bc") (fun _ => toByte 255) 4).1 = (fun _ => toByte 255) :=
  ⟨C14_decodeBuffer_failure_writes_nothing (cstr "abcde") (fun _ => toByte 255) 5
      Error.MalformedLength (by decide),
    C14_decodeBuffer_failure_writes_nothing (cstr "a=bc") (fun _ => toByte 255) 4
      Error.InvalidEncoding (by decide)⟩


/-- C15 (line check of `decodeFile`; the file is a byte sequence split at `'\n'`), where the
code departs from it: when the file starts with the lines `lines`, each ended by `'\n'`,
each of fewer than `2 ^ 32 / 3` characters and each either empty after the removal of one
trailing carriage return or, after that removal, a valid encoding, and its next line `bad`
has, after that removal, a length that is not a multiple of 4, `decodeFile` reaches the
branch that throws for that line, with the number of the line counted from 1 over every
line read, the empty ones included (those are skipped), but the branch has deleted
`outBuffer` and the handler that catches its `throw` deletes it again: the call does not end
in `MalformedLine`. -/
theorem C15_decodeFile_malformed_line_double_delete (uninit : Buffer byte)
    (lines : List (List Nat)) (bad tail : List Nat)
    (hlines : ∀ l ∈ lines, (∀ c ∈ l, c ≠ '\n'.toNat) ∧ (stripCR l).length * 3 < 2 ^ 32 ∧
      (stripCR l = [] ∨
        isValidEncoding (Buffer.ofList (stripCR l) 0) (stripCR l).length = true))
    (hbad : ∀ c ∈ bad, c ≠ '\n'.toNat) (hlen : (stripCR bad).length % 4 ≠ 0)
    (htail : tail = [] ∨ ∃ t, tail = '\n'.toNat :: t) :
    ∃ written, decodeFile (linesOf lines ++ bad ++ tail) uninit =
        some (written, .error (Error.DoubleDelete (lines.length + 1))) ∧
      decodeFile (linesOf lines ++ bad ++ tail) uninit ≠
        some (written, .error (Error.MalformedLine (lines.length + 1))) := by
  have e : ('\n'.toNat : Nat) = 10 := by decide
  rw [e] at hlines hbad htail
  have hne : bad ≠ [] := by
    intro h
    rw [h] at hlen
    exact hlen (by decide)
  have hpos : 0 < bad.length := List.length_pos.mpr hne
  have hll := linesOf_length lines
  obtain ⟨w, hw⟩ := decodeFileLoop_malformed uninit bad tail hbad hlen htail lines hlines
    ((linesOf lines ++ bad ++ tail).length + 1) 0 (getDecodedSize 76) (getDecodedSize 76)
    uninit [] (Nat.le_refl _) (by simp only [List.length_append]; omega)
  have hd : decodeFile (linesOf lines ++ bad ++ tail) uninit =
      some (w, .error (Error.DoubleDelete (lines.length + 1))) := by
    unfold decodeFile
    simp only []
    rw [if_neg (by simp only [List.length_append]; omega), hw, Nat.zero_add]
  refine ⟨w, hd, ?_⟩
  rw [hd]
  intro h
  cases h

/-- C15 at the file "TWFu\n\n\r\nabc": the lines 2 and 3 are empty once the carriage
return is removed, and line 4 has length 3; the three bytes of "Man" have been written. -/
theorem C15_decodeFile_malformed_line_double_delete_witness :
    (∃ written, decodeFile (linesOf [codes "TWFu", codes "", codes "\r"] ++ codes "abc" ++ [])
          (fun _ => toByte 0) =
        some (written, .error (Error.DoubleDelete ([codes "TWFu", codes "", codes "\r"].length
          + 1))) ∧
      decodeFile (linesOf [codes "TWFu", codes "", codes "\r"] ++ codes "abc" ++ [])
          (fun _ => toByte 0) ≠
        some (written, .error (Error.MalformedLine ([codes "TWFu", codes "", codes "\r"].length
          + 1)))) ∧
    decodeFile (codes "TWFu\n\n\r\nabc") (fun _ => toByte 0) =
      some ((codes "Man").map toByte, .error (Error.DoubleDelete 4)) :=
  ⟨C15_decodeFile_malformed_line_double_delete (fun _ => toByte 0)
    [codes "TWFu", codes "", codes "\r"] (codes "abc") [] (by decide) (by decide) (by decide)
    (Or.inl rfl), by decide⟩


/-- C16 (configuration check of `encodeFile`, evaluated where it breaks): the line size 0 is
a multiple of 4 and passes the check, the chunk size `0 * 3 / 4` is 0, and `encodeFile` on a
non-empty file then divides the file length by 0 instead of completing; with a line size
that is not a multiple of 4 it throws `InvalidConfiguration`, and with line size 4 it
completes. -/
theorem C16_encodeFile_zero_line_size :
    0 % 4 = 0 ∧ 0 * 3 / 4 = 0 ∧
    encodeFile ((codes "Man").map toByte) ['\r'.toNat, '\n'.toNat] 0 (fun _ => toByte 0)
      (fun _ => 0) = .error Error.DivisionByZero ∧
    encodeFile ((codes "Man").map toByte) ['\r'.toNat, '\n'.toNat] 6 (fun _ => toByte 0)
      (fun _ => 0) = .error Error.InvalidConfiguration ∧
    encodeFile ((codes "Man").map toByte) ['\r'.toNat, '\n'.toNat] 4 (fun _ => toByte 0)
      (fun _ => 0) = .ok (codes "TWFu\r\n") := by
  decide


/-- C17 (bit layout of `encodeBlock`): for `inLength` in 1..3 and the input bytes `b0`, `b1`,
`b2` (a byte past `inLength` taken as 0), with `d0 d1 d2 d3` the four base-64 digits of the
24-bit number `b0 * 2^16 + b1 * 2^8 + b2`, `encodeBlock` writes `out[0] = alphabet[d0]`,
`out[1] = alphabet[d1]`, `out[2] = alphabet[d2]` if `inLength >= 2` and `=` otherwise,
`out[3] = alphabet[d3]` if `inLength = 3` and `=` otherwise; every index with which it looks
into the table of 64 entries is below 64. -/
theorem C17_encodeBlock_bit_layout (inp : Buffer byte) (inPtr : Nat) (out : Buffer Nat)
    (outPtr : Nat) (inLength : Nat) (hn : 1 ≤ inLength ∧ inLength ≤ 3) :
    let b0 := (inp inPtr).val
    let b1 := if inLength ≥ 2 then (inp (inPtr + 1)).val else 0
    let b2 := if inLength = 3 then (inp (inPtr + 2)).val else 0
    let d0 := (b0 * 2 ^ 16 + b1 * 2 ^ 8 + b2) / 64 ^ 3
    let d1 := (b0 * 2 ^ 16 + b1 * 2 ^ 8 + b2) / 64 ^ 2 % 64
    let d2 := (b0 * 2 ^ 16 + b1 * 2 ^ 8 + b2) / 64 % 64
    let d3 := (b0 * 2 ^ 16 + b1 * 2 ^ 8 + b2) % 64
    (d0 < 64 ∧ d1 < 64 ∧ d2 < 64 ∧ d3 < 64 ∧
      b0 * 2 ^ 16 + b1 * 2 ^ 8 + b2 = d0 * 64 ^ 3 + d1 * 64 ^ 2 + d2 * 64 + d3) ∧
    encodeBlock inp inPtr out outPtr inLength outPtr = byteToChar d0 ∧
    encodeBlock inp inPtr out outPtr inLength (outPtr + 1) = byteToChar d1 ∧
    encodeBlock inp inPtr out outPtr inLength (outPtr + 2) =
      (if inLength ≥ 2 then byteToChar d2 else '='.toNat) ∧
    encodeBlock inp inPtr out outPtr inLength (outPtr + 3) =
      (if inLength = 3 then byteToChar d3 else '='.toNat) ∧
    (_byteToChar.length = 64 ∧
      (inp inPtr).val >>> 2 = d0 ∧
      (((inp inPtr).val &&& 0x03) <<< 4) |||
        (if inLength > 1 then ((inp (inPtr + 1)).val &&& 0xF0) >>> 4 else 0) = d1 ∧
      (inLength ≥ 2 → (((inp (inPtr + 1)).val &&& 0x0F) <<< 2) |||
        (if inLength = 3 then ((inp (inPtr + 2)).val &&& 0xC0) >>> 6 else 0) = d2) ∧
      (inLength = 3 → (inp (inPtr + 2)).val &&& 0x3F = d3)) := by
  intro b0 b1 b2 d0 d1 d2 d3
  have l0 : (inp inPtr).val < 256 := (inp inPtr).isLt
  have l1 : (inp (inPtr + 1)).val < 256 := (inp (inPtr + 1)).isLt
  have l2 : (inp (inPtr + 2)).val < 256 := (inp (inPtr + 2)).isLt
  have hp : ('='.toNat : Nat) = _paddingChar := rfl
  have p16 : (2 : Nat) ^ 16 = 65536 := by norm_num
  have p8 : (2 : Nat) ^ 8 = 256 := by norm_num
  have p3 : (64 : Nat) ^ 3 = 262144 := by norm_num
  have p2 : (64 : Nat) ^ 2 = 4096 := by norm_num
  -- the index expressions of the source, as division and remainder
  have i0 : (inp inPtr).val >>> 2 = (inp inPtr).val / 4 := shr2_eq _ l0
  have i1 : (((inp inPtr).val &&& 0x03) <<< 4) |||
      (if inLength > 1 then ((inp (inPtr + 1)).val &&& 0xF0) >>> 4 else 0) =
      (inp inPtr).val % 4 * 16 + (if inLength > 1 then (inp (inPtr + 1)).val / 16 else 0) := by
    rw [and3_shl4_eq _ l0, andF0_shr4_eq _ l1]
    split_ifs
    · exact or16_eq _ (by omega) _ (by omega)
    · exact or16_eq _ (by omega) _ (by omega)
  have i2 : (((inp (inPtr + 1)).val &&& 0x0F) <<< 2) |||
      (if inLength = 3 then ((inp (inPtr + 2)).val &&& 0xC0) >>> 6 else 0) =
      (inp (inPtr + 1)).val % 16 * 4 +
        (if inLength = 3 then (inp (inPtr + 2)).val / 64 else 0) := by
    rw [and0F_shl2_eq _ l1, andC0_shr6_eq _ l2]
    split_ifs
    · exact or4_eq _ (by omega) _ (by omega)
    · exact or4_eq _ (by omega) _ (by omega)
  have i3 : (inp (inPtr + 2)).val &&& 0x3F = (inp (inPtr + 2)).val % 64 := and3F_eq _ l2
  have c0 := encodeBlock_apply inp inPtr out outPtr inLength outPtr
  have c1 := encodeBlock_apply inp inPtr out outPtr inLength (outPtr + 1)
  have c2 := encodeBlock_apply inp inPtr out outPtr inLength (outPtr + 2)
  have c3 := encodeBlock_apply inp inPtr out outPtr inLength (outPtr + 3)
  rw [if_pos (by omega), Nat.sub_self] at c0
  rw [if_pos (by omega), Nat.add_sub_cancel_left] at c1 c2 c3
  rw [c0, c1, c2, c3, hp]
  simp only [blockChar]
  rw [i0, i1, i2, i3]
  simp only [d0, d1, d2, d3, b0, b1, b2, p16, p8, p3, p2]
  refine ⟨⟨?_, ?_, ?_, ?_, ?_⟩, ?_, ?_, ?_, ?_, by decide, ?_, ?_, ?_, ?_⟩
  · split_ifs <;> omega
  · split_ifs <;> omega
  · split_ifs <;> omega
  · split_ifs <;> omega
  · split_ifs <;> omega
  · congr 1
    split_ifs <;> omega
  · congr 1
    split_ifs <;> omega
  · by_cases g : inLength ≥ 2
    · rw [if_pos g, if_pos g]
      congr 1
      split_ifs <;> omega
    · rw [if_neg g, if_neg g]
  · by_cases g : inLength = 3
    · rw [if_pos g, if_pos g]
      congr 1
      split_ifs <;> omega
    · rw [if_neg g, if_neg g]
  · split_ifs <;> omega
  · split_ifs <;> omega
  · intro g
    split_ifs <;> omega
  · intro g
    split_ifs <;> omega

/-- C17 at the two bytes "Ma", which `encodeBlock` turns into "TWE=". -/
theorem C17_encodeBlock_bit_layout_witness :
    (encodeBlock (bytes "Ma") 0 (fun _ => 0) 0 2).read 0 4 = codes "TWE=" ∧
    encodeBlock (bytes "Ma") 0 (fun _ => 0) 0 2 0 =
      byteToChar ((77 * 2 ^ 16 + 97 * 2 ^ 8 + 0) / 64 ^ 3) :=
  ⟨by decide,
    (C17_encodeBlock_bit_layout (bytes "Ma") 0 (fun _ => 0) 0 2 (by decide)).2.1⟩


/-- C18 (bit layout of `decodeBlock` on a full block): for a block of four alphabet
characters, of values `v0 v1 v2 v3` in the reverse table, `decodeBlock` returns 3 and the
three bytes `B0 B1 B2` it writes satisfy
`B0 * 2^16 + B1 * 2^8 + B2 = v0 * 64^3 + v1 * 64^2 + v2 * 64 + v3`. -/
theorem C18_decodeBlock_full_block (inp : Buffer Nat) (inPtr : Nat) (out : Buffer byte)
    (outPtr : Nat) (v0 v1 v2 v3 : Nat)
    (h0 : charToByte (inp inPtr) = .ok v0) (h1 : charToByte (inp (inPtr + 1)) = .ok v1)
    (h2 : charToByte (inp (inPtr + 2)) = .ok v2) (h3 : charToByte (inp (inPtr + 3)) = .ok v3) :
    (decodeBlock inp inPtr out outPtr).2 = .ok 3 ∧
    ((decodeBlock inp inPtr out outPtr).1 outPtr).val * 2 ^ 16 +
      ((decodeBlock inp inPtr out outPtr).1 (outPtr + 1)).val * 2 ^ 8 +
      ((decodeBlock inp inPtr out outPtr).1 (outPtr + 2)).val =
      v0 * 64 ^ 3 + v1 * 64 ^ 2 + v2 * 64 + v3 := by
  have hpe : charToByte _paddingChar = .error Error.InvalidCharacter := by decide
  have n2 : inp (inPtr + 2) ≠ _paddingChar := by
    intro h; rw [h, hpe] at h2; cases h2
  have n3 : inp (inPtr + 3) ≠ _paddingChar := by
    intro h; rw [h, hpe] at h3; cases h3
  have hg : blockGood inp inPtr :=
    ⟨⟨v0, h0⟩, ⟨v1, h1⟩, Or.inr ⟨n2, ⟨v2, h2⟩, Or.inr ⟨v3, h3⟩⟩⟩
  have hl : decodedLen inp inPtr = 3 := by
    unfold decodedLen
    rw [if_pos ⟨n2, n3⟩]
  obtain ⟨s1, s2⟩ := decodeBlock_spec inp inPtr out outPtr hg
  rw [hl] at s1 s2
  refine ⟨s1, ?_⟩
  rw [s2 outPtr, s2 (outPtr + 1), s2 (outPtr + 2), if_pos (by omega), if_pos (by omega),
    if_pos (by omega), Nat.sub_self, Nat.add_sub_cancel_left, Nat.add_sub_cancel_left]
  have l0 := charToByte_lt _ _ h0
  have l1 := charToByte_lt _ _ h1
  have l2 := charToByte_lt _ _ h2
  have l3 := charToByte_lt _ _ h3
  simp only [decodedByte, if_pos n2, toByte_val, charVal_eq _ _ h0, charVal_eq _ _ h1,
    charVal_eq _ _ h2, charVal_eq _ _ h3]
  have p16 : (2 : Nat) ^ 16 = 65536 := by norm_num
  have p8 : (2 : Nat) ^ 8 = 256 := by norm_num
  have p3 : (64 : Nat) ^ 3 = 262144 := by norm_num
  have p2 : (64 : Nat) ^ 2 = 4096 := by norm_num
  rw [p16, p8, p3, p2]
  omega

/-- C18 at the block "TWFu", which `decodeBlock` turns into the three bytes "Man". -/
theorem C18_decodeBlock_full_block_witness :
    (decodeBlock (cstr "TWFu") 0 (fun _ => toByte 0) 0).2 = .ok 3 ∧
    ((decodeBlock (cstr "TWFu") 0 (fun _ => toByte 0) 0).1 0).val * 2 ^ 16 +
      ((decodeBlock (cstr "TWFu") 0 (fun _ => toByte 0) 0).1 (0 + 1)).val * 2 ^ 8 +
      ((decodeBlock (cstr "TWFu") 0 (fun _ => toByte 0) 0).1 (0 + 2)).val =
      19 * 64 ^ 3 + 22 * 64 ^ 2 + 5 * 64 + 46 :=
  C18_decodeBlock_full_block (cstr "TWFu") 0 (fun _ => toByte 0) 0 19 22 5 46
    (by decide) (by decide) (by decide) (by decide)


/-- C19 (the alphabet tables are mutually inverse): for every `v` in 0..63,
`charToByte (byteToChar v)` returns `v`; for every character on which `charToByte` returns,
`byteToChar` of the value returned is that character; so the 64 table entries are pairwise
distinct, and the padding character `=` is none of them and has no value. -/
theorem C19_alphabet_tables_inverse :
    _byteToChar.length = 64 ∧
    (∀ v < 64, charToByte (byteToChar v) = .ok v) ∧
    (∀ c v, charToByte c = .ok v → byteToChar v = c) ∧
    (∀ v < 64, ∀ w < 64, byteToChar v = byteToChar w → v = w) ∧
    _byteToChar.Nodup ∧
    (∀ v < 64, byteToChar v ≠ _paddingChar) ∧
    _paddingChar ∉ _byteToChar ∧
    charToByte _paddingChar = .error Error.InvalidCharacter := by
  refine ⟨by decide, charToByte_byteToChar, byteToChar_charToByte,
    fun v hv w hw h => byteToChar_injective v w hv hw h, by decide, ?_, by decide, by decide⟩
  intro v hv
  rw [paddingChar_eq]
  exact (byteToChar_class v hv).2


/-- C20 (reverse lookup): `charToByte` returns 62 for `+`, 63 for `/`, `52 + (c - '0')` for a
digit, `c - 'A'` for an uppercase letter and `26 + (c - 'a')` for a lowercase letter, always a
value in 0..63; it throws `InvalidCharacter` exactly when the character is none of these,
that is, is not in the alphabet table, as is the case of the padding character `=`. -/
theorem C20_charToByte_reverse_lookup (c : Nat) :
    (c = '+'.toNat → charToByte c = .ok 62) ∧
    (c = '/'.toNat → charToByte c = .ok 63) ∧
    ('0'.toNat ≤ c ∧ c ≤ '9'.toNat → charToByte c = .ok (52 + (c - '0'.toNat))) ∧
    ('A'.toNat ≤ c ∧ c ≤ 'Z'.toNat → charToByte c = .ok (c - 'A'.toNat)) ∧
    ('a'.toNat ≤ c ∧ c ≤ 'z'.toNat → charToByte c = .ok (26 + (c - 'a'.toNat))) ∧
    (∀ v, charToByte c = .ok v → v < 64) ∧
    (charToByte c = .error Error.InvalidCharacter ↔
      ¬ (c = '+'.toNat ∨ c = '/'.toNat ∨ ('0'.toNat ≤ c ∧ c ≤ '9'.toNat) ∨
        ('A'.toNat ≤ c ∧ c ≤ 'Z'.toNat) ∨ ('a'.toNat ≤ c ∧ c ≤ 'z'.toNat))) ∧
    (charToByte c = .error Error.InvalidCharacter ↔ c ∉ _byteToChar) ∧
    (∀ e, charToByte c = .error e → e = Error.InvalidCharacter) ∧
    charToByte '='.toNat = .error Error.InvalidCharacter := by
  have e1 : ('+'.toNat : Nat) = 43 := by decide
  have e2 : ('/'.toNat : Nat) = 47 := by decide
  have e3 : ('0'.toNat : Nat) = 48 := by decide
  have e4 : ('9'.toNat : Nat) = 57 := by decide
  have e5 : ('A'.toNat : Nat) = 65 := by decide
  have e6 : ('Z'.toNat : Nat) = 90 := by decide
  have e7 : ('a'.toNat : Nat) = 97 := by decide
  have e8 : ('z'.toNat : Nat) = 122 := by decide
  rw [e1, e2, e3, e4, e5, e6, e7, e8]
  obtain ⟨c1, c2, c3, c4, c5, c6⟩ := charToByte_cases c
  have hiff : charToByte c = .error Error.InvalidCharacter ↔
      ¬ (c = 43 ∨ c = 47 ∨ (48 ≤ c ∧ c ≤ 57) ∨ (65 ≤ c ∧ c ≤ 90) ∨ (97 ≤ c ∧ c ≤ 122)) := by
    constructor
    · intro h hcl
      rcases hcl with h1 | h1 | h1 | h1 | h1
      · rw [c1 h1] at h; cases h
      · rw [c2 h1] at h; cases h
      · rw [c3 h1] at h; cases h
      · rw [c4 h1] at h; cases h
      · rw [c5 h1] at h; cases h
    · exact c6
  refine ⟨c1, c2, c3, c4, c5, fun v h => charToByte_lt c v h, hiff, ?_, ?_, by decide⟩
  · rw [hiff, mem_byteToChar_iff]
  · intro e h
    by_cases hcl : c = 43 ∨ c = 47 ∨ (48 ≤ c ∧ c ≤ 57) ∨ (65 ≤ c ∧ c ≤ 90) ∨ (97 ≤ c ∧ c ≤ 122)
    · rcases hcl with h1 | h1 | h1 | h1 | h1
      · rw [c1 h1] at h; cases h
      · rw [c2 h1] at h; cases h
      · rw [c3 h1] at h; cases h
      · rw [c4 h1] at h; cases h
      · rw [c5 h1] at h; cases h
    · rw [c6 hcl] at h
      cases h
      rfl


/-- C21 (the validator agrees with the decoder): `decodeBuffer` returns exactly on the buffers
`isValidEncoding` accepts, and it never throws the `InvalidCharacter` of `charToByte` nor the
`InvalidPadding` of `decodeBlock`. -/
theorem C21_validator_agrees_with_decoder (inp : Buffer Nat) (out : Buffer byte)
    (inSize : Nat) :
    ((∃ len, (decodeBuffer inp out inSize).2 = .ok len) ↔ isValidEncoding inp inSize = true) ∧
    (decodeBuffer inp out inSize).2 ≠ .error Error.InvalidCharacter ∧
    (decodeBuffer inp out inSize).2 ≠ .error Error.InvalidPadding := by
  by_cases hv : isValidEncoding inp inSize = true
  · have h := (decodeBuffer_of_valid inp out inSize hv).1
    rw [h]
    simp [hv]
  · have hv2 : isValidEncoding inp inSize = false := by simpa using hv
    have h : (decodeBuffer inp out inSize).2 = .error Error.MalformedLength ∨
        (decodeBuffer inp out inSize).2 = .error Error.InvalidEncoding := by
      unfold decodeBuffer
      by_cases h4 : inSize % 4 ≠ 0
      · rw [if_pos h4]; exact Or.inl rfl
      · rw [if_neg h4, if_pos (by simp [hv2])]; exact Or.inr rfl
    rcases h with h | h <;> rw [h] <;> simp [hv2]


/-- C25, as stated, fails: the input length `3 * 2 ^ 62` fits the 64 bits of `ulong`, and
`getEncodedSize` in 64-bit arithmetic wraps to 0 on it, which is below `2 ^ 32`, yet
`nChunks = inSize / 3 = 2 ^ 62` does not fit the 32 bits of `uint` and wraps to 0.  And for the
input length `3 * (2 ^ 30 - 1)`, of encoded size `2 ^ 32 - 4`, the product
`(nChunks + 1) * 4`, which `encodeBuffer` does not evaluate for it, is `2 ^ 32`. -/
theorem C25_nChunks_wraps_when_getEncodedSize_wraps :
    (3 * 2 ^ 62 < 2 ^ 64 ∧ getEncodedSize64 (3 * 2 ^ 62) = 0 ∧
      getEncodedSize64 (3 * 2 ^ 62) < 2 ^ 32 ∧
      (3 * 2 ^ 62) / 3 = 2 ^ 62 ∧ ((3 * 2 ^ 62) / 3) % 2 ^ 32 = 0 ∧
      ((3 * 2 ^ 62) / 3) % 2 ^ 32 ≠ (3 * 2 ^ 62) / 3) ∧
    (getEncodedSize64 (3 * (2 ^ 30 - 1)) = 2 ^ 32 - 4 ∧
      getEncodedSize64 (3 * (2 ^ 30 - 1)) < 2 ^ 32 ∧ (3 * (2 ^ 30 - 1)) % 3 = 0 ∧
      ((3 * (2 ^ 30 - 1)) / 3 + 1) * 4 = 2 ^ 32) := by
  decide

/-- C25, amended (`uint` of 32 bits, `ulong` of 64 bits, with wrap-around): for every input
length whose encoded size `(inSize / 3) * 4 + (4 if inSize % 3 > 0 else 0)`, computed without
wrap-around, is below `2 ^ 32`, `nChunks = inSize / 3` does not wrap, the product `nChunks * 4`
does not wrap, the product `(nChunks + 1) * 4` does not wrap when `encodeBuffer` evaluates
it (`inSize % 3 > 0`), `getEncodedSize` does not wrap, and `encodeBuffer` returns
`getEncodedSize inSize` and writes what it writes without wrap-around. -/
theorem C25_encodeBuffer_32_bit_arithmetic (inp : Buffer byte) (out : Buffer Nat)
    (inSize : Nat) (h : getEncodedSize inSize < 2 ^ 32) :
    (inSize / 3) % 2 ^ 32 = inSize / 3 ∧
    (inSize / 3) * 4 < 2 ^ 32 ∧
    (inSize % 3 > 0 → (inSize / 3 + 1) * 4 < 2 ^ 32) ∧
    getEncodedSize64 inSize = getEncodedSize inSize ∧
    (encodeBuffer32 inp out inSize).2 = getEncodedSize64 inSize ∧
    encodeBuffer32 inp out inSize = encodeBuffer inp out inSize := by
  have p32 : (2 : Nat) ^ 32 = 4294967296 := by norm_num
  have p64 : (2 : Nat) ^ 64 = 18446744073709551616 := by norm_num
  have hL := getEncodedSize_eq inSize
  rw [p32] at h ⊢
  have h1 : (inSize / 3) % 4294967296 = inSize / 3 := by omega
  have h2 : (inSize % 3) % 4294967296 = inSize % 3 := by omega
  have hg : getEncodedSize64 inSize = getEncodedSize inSize := by
    unfold getEncodedSize64 getEncodedSize
    rw [p64]
    split_ifs <;> omega
  have he : encodeBuffer32 inp out inSize = encodeBuffer inp out inSize := by
    unfold encodeBuffer32 encodeBuffer
    rw [p32, h1, h2]
    simp only []
    split_ifs with hl
    · congr 1
      omega
    · congr 1
      omega
  refine ⟨h1, by omega, fun _ => by omega, hg, ?_, he⟩
  rw [he, hg, encodeBuffer_length]

/-- C25 amended, at the input length 4, of encoded size 8. -/
theorem C25_encodeBuffer_32_bit_arithmetic_witness :
    (4 / 3) % 2 ^ 32 = 4 / 3 ∧
    (4 / 3) * 4 < 2 ^ 32 ∧
    (4 % 3 > 0 → (4 / 3 + 1) * 4 < 2 ^ 32) ∧
    getEncodedSize64 4 = getEncodedSize 4 ∧
    (encodeBuffer32 (bytes "Ruby") (fun _ => 0) 4).2 = getEncodedSize64 4 ∧
    encodeBuffer32 (bytes "Ruby") (fun _ => 0) 4 = encodeBuffer (bytes "Ruby") (fun _ => 0) 4 :=
  C25_encodeBuffer_32_bit_arithmetic (bytes "Ruby") (fun _ => 0) 4 (by decide)

end Base64
